import Mathlib

/-!
# QueryScape core: shallow embedding and verification

This file embeds the core data model and operations of the QueryScape
repository (graph snapshots, the two patch layers, the LRU+TTL cache,
the session managers and the sampling fallbacks) as executable Lean
definitions, translated from the TypeScript sources:

* `packages/core/src/types/graph.ts` — graph data model
* `packages/core/src/patch/patch-engine.ts` — `PatchEngine` (diff/apply)
* `packages/core/src/patch/index.ts` — `GraphPatch` layer
  (`calculatePatch`/`applyPatch`/`invertPatch`/`mergePatches`)
* `packages/core/src/cache/index.ts` — `LRUCache`
* `packages/core/src/session/index.ts` — `GraphSession` and `SessionManager`
* accelerator fallbacks — `randomSample`

JavaScript `Map`s are modelled as association lists in insertion order
(the front of the list is the oldest entry); `Date.now()` is modelled as
an explicit `now : Nat` parameter; patch ids and timestamps (random /
clock generated, never inspected by the properties at issue) are
omitted, a patch being its ordered operation list.
-/

namespace QueryScape

/-- A property value (`PropertyValue` in `types/graph.ts`: string, number,
boolean, null, list, string-keyed map).  The core never computes with a
property value: it stores it, copies it, and compares it with
`JSON.stringify`, which on that closed type is injective (object key
order included).  We therefore model a value by its serialized form. -/
structure PropertyValue where
  json : String
  deriving DecidableEq, Repr

/-- `Properties = Record<string, PropertyValue>`: a JS object, i.e. an
ordered association list with (by the data-model invariant) unique keys. -/
abbrev Props := List (String × PropertyValue)

/-- `GraphNode` from `types/graph.ts` (the optional `metadata` field is
never read by any of the operations embedded here and is omitted). -/
structure GraphNode where
  id : String
  labels : List String
  properties : Props
  deriving DecidableEq, Repr

/-- `GraphEdge` from `types/graph.ts`. -/
structure GraphEdge where
  id : String
  source : String
  target : String
  type : String
  properties : Props
  deriving DecidableEq, Repr

/-- `Graph` / `GraphData`: plain node and edge arrays. -/
structure Graph where
  nodes : List GraphNode
  edges : List GraphEdge
  deriving DecidableEq, Repr

instance : Inhabited GraphNode := ⟨⟨"", [], []⟩⟩
instance : Inhabited GraphEdge := ⟨⟨"", "", "", "", []⟩⟩

/-! ## Association-list machinery

`lookupBy key l i` models `map.get(i)` on a JS `Map` whose entries are
the elements of `l` keyed by `key` (first match; with unique keys, the
match). -/

/-- First element of `l` whose key is `i` (JS `Map.get`). -/
def lookupBy (key : α → String) : List α → String → Option α
  | [], _ => none
  | a :: l, i => if key a = i then some a else lookupBy key l i

/-- `map.delete(i)` : drop the entries keyed `i`. -/
def deleteBy (key : α → String) (l : List α) (i : String) : List α :=
  l.filter (fun a => key a != i)

/-- `map.set` for an entry: replace in place if the key is present
(JS `Map.set` keeps the position of an existing key), else append. -/
def setBy (key : α → String) (l : List α) (a : α) : List α :=
  if (lookupBy key l (key a)).isSome then
    l.map (fun b => if key b = key a then a else b)
  else
    l ++ [a]

/-- Key uniqueness (the data-model invariant "IDs unique within a
snapshot", "property keys unique"). -/
abbrev NodupKeys (key : α → String) (l : List α) : Prop :=
  (l.map key).Nodup

theorem lookupBy_eq_find? (key : α → String) (l : List α) (i : String) :
    lookupBy key l i = l.find? (fun a => key a = i) := by
  induction l with
  | nil => rfl
  | cons a l ih =>
    by_cases h : key a = i <;> simp [lookupBy, List.find?, h, ih]

theorem lookupBy_mem {key : α → String} {l : List α} {i : String} {a : α}
    (h : lookupBy key l i = some a) : a ∈ l ∧ key a = i := by
  induction l with
  | nil => simp [lookupBy] at h
  | cons b l ih =>
    by_cases hb : key b = i
    · simp only [lookupBy, hb, if_pos, Option.some.injEq] at h
      exact ⟨by simp [← h], h ▸ hb⟩
    · simp only [lookupBy, hb, if_neg, if_false] at h
      rcases ih h with ⟨h1, h2⟩
      exact ⟨List.mem_cons_of_mem _ h1, h2⟩

theorem lookupBy_eq_none {key : α → String} {l : List α} {i : String} :
    lookupBy key l i = none ↔ ∀ a ∈ l, key a ≠ i := by
  induction l with
  | nil => simp [lookupBy]
  | cons b l ih =>
    by_cases hb : key b = i <;> simp [lookupBy, hb, ih]

theorem lookupBy_isSome_iff {key : α → String} {l : List α} {i : String} :
    (lookupBy key l i).isSome ↔ ∃ a ∈ l, key a = i := by
  rcases h : lookupBy key l i with _ | a
  · simp only [Option.isSome_none, Bool.false_eq_true, false_iff]
    rintro ⟨a, ha, hk⟩
    exact lookupBy_eq_none.mp h a ha hk
  · simp only [Option.isSome_some, true_iff]
    exact ⟨a, (lookupBy_mem h).1, (lookupBy_mem h).2⟩

theorem lookupBy_append (key : α → String) (l₁ l₂ : List α) (i : String) :
    lookupBy key (l₁ ++ l₂) i =
      (lookupBy key l₁ i).orElse (fun _ => lookupBy key l₂ i) := by
  induction l₁ with
  | nil => simp [lookupBy, Option.orElse]
  | cons a l ih =>
    by_cases h : key a = i <;> simp [lookupBy, h, ih, Option.orElse]

/-- Looking up a present element with unique keys finds exactly it. -/
theorem lookupBy_of_mem {key : α → String} {l : List α} {a : α}
    (hnd : NodupKeys key l) (ha : a ∈ l) : lookupBy key l (key a) = some a := by
  induction l with
  | nil => simp at ha
  | cons b l ih =>
    rcases List.mem_cons.mp ha with rfl | ha'
    · simp [lookupBy]
    · have hb : key b ≠ key a := by
        intro h
        have : key a ∈ l.map key := List.mem_map_of_mem key ha'
        rw [← h] at this
        exact (List.nodup_cons.mp hnd).1 this
      simp only [lookupBy, hb, if_false]
      exact ih (List.nodup_cons.mp hnd).2 ha'

/-- Filtering by a predicate that holds on every element keyed `i`
does not change the lookup at `i`. -/
theorem lookupBy_filter_of_imp {key : α → String} {l : List α} {i : String}
    {q : α → Bool} (h : ∀ a ∈ l, key a = i → q a = true) :
    lookupBy key (l.filter q) i = lookupBy key l i := by
  induction l with
  | nil => rfl
  | cons b l ih =>
    have ih' := ih (fun a ha => h a (List.mem_cons_of_mem _ ha))
    by_cases hb : key b = i
    · have hq : q b = true := h b (List.mem_cons_self _ _) hb
      simp [List.filter_cons, hq, lookupBy, hb]
    · by_cases hq : q b <;> simp [List.filter_cons, hq, lookupBy, hb, ih']

/-- Filtering away every element keyed `i` empties the lookup at `i`. -/
theorem lookupBy_filter_of_not {key : α → String} {l : List α} {i : String}
    {q : α → Bool} (h : ∀ a ∈ l, key a = i → q a = false) :
    lookupBy key (l.filter q) i = none := by
  rw [lookupBy_eq_none]
  intro a ha
  rcases List.mem_filter.mp ha with ⟨ha', hq⟩
  intro hk
  rw [h a ha' hk] at hq
  exact Bool.false_ne_true hq

/-- Lookup through a key-preserving map. -/
theorem lookupBy_map_keyfix {key : α → String} {l : List α} {i : String}
    {f : α → α} (hf : ∀ a, key (f a) = key a) :
    lookupBy key (l.map f) i = (lookupBy key l i).map f := by
  induction l with
  | nil => rfl
  | cons b l ih =>
    by_cases hb : key b = i <;> simp [lookupBy, hf, hb, ih]

theorem lookupBy_deleteBy (key : α → String) (l : List α) (i j : String) :
    lookupBy key (deleteBy key l i) j =
      if j = i then none else lookupBy key l j := by
  by_cases h : j = i
  · subst h
    rw [if_pos rfl]
    exact lookupBy_filter_of_not (fun a _ hk => by simp [hk])
  · rw [if_neg h]
    exact lookupBy_filter_of_imp (fun a _ hk => by simp [hk]; exact fun he => h he)

theorem lookupBy_setBy {key : α → String} {l : List α} (a : α) (i : String) :
    lookupBy key (setBy key l a) i =
      if i = key a then some a else lookupBy key l i := by
  unfold setBy
  by_cases hs : (lookupBy key l (key a)).isSome
  · rw [if_pos hs,
      lookupBy_map_keyfix (f := fun b => if key b = key a then a else b)
        (by intro b; by_cases h : key b = key a <;> simp [h])]
    by_cases hi : i = key a
    · subst hi
      rcases Option.isSome_iff_exists.mp hs with ⟨b, hb⟩
      rw [hb, if_pos rfl]
      simp [(lookupBy_mem hb).2]
    · rw [if_neg hi]
      rcases h : lookupBy key l i with _ | b
      · rfl
      · have hbk : key b = i := (lookupBy_mem h).2
        have : ¬ key b = key a := by rw [hbk]; exact hi
        simp [this]
  · rw [if_neg hs, lookupBy_append]
    rcases h : lookupBy key l i with _ | b
    · by_cases hi : i = key a <;>
        simp [lookupBy, hi, Option.orElse] <;>
        exact fun he => hi he.symm
    · have hi : ¬ i = key a := by
        rintro rfl
        rw [h] at hs
        simp at hs
      simp [Option.orElse, hi]

/-! ## LRU cache (`packages/core/src/cache/index.ts`)

The JS `Map` backing the cache is kept in insertion order; `get` moves a
live entry to the back (delete + re-insert), so the front of `entries`
is always the least-recently-accessed live entry.  `stats.size` is a
separately maintained counter, exactly as in the source. -/

/-- `CacheEntry` from `cache/index.ts`. -/
structure CacheEntry (T : Type) where
  value : T
  timestamp : Nat
  accessCount : Nat
  deriving DecidableEq, Repr

/-- `CacheStats` from `cache/index.ts`. -/
structure CacheStats where
  hits : Nat
  misses : Nat
  evictions : Nat
  size : Nat
  maxSize : Nat
  deriving DecidableEq, Repr

/-- `CacheConfig` from `cache/index.ts`. -/
structure CacheConfig where
  maxSize : Nat
  ttlMs : Nat
  deriving DecidableEq, Repr

/-- The `LRUCache` class state. -/
structure LRUCache (T : Type) where
  entries : List (String × CacheEntry T)
  stats : CacheStats
  config : CacheConfig
  deriving DecidableEq, Repr

namespace LRUCache

variable {T : Type}

/-- The constructor: empty map, zeroed stats. -/
def empty (config : CacheConfig) : LRUCache T :=
  { entries := []
    stats := { hits := 0, misses := 0, evictions := 0, size := 0,
               maxSize := config.maxSize }
    config := config }

/-- `get(key)`: miss on absence; lazy-expire and miss when
`now - timestamp > ttlMs`; otherwise bump the access count, move the
entry to the back of the map, count a hit and return the value. -/
def get (c : LRUCache T) (now : Nat) (k : String) : Option T × LRUCache T :=
  match lookupBy Prod.fst c.entries k with
  | none => (none, { c with stats := { c.stats with misses := c.stats.misses + 1 } })
  | some (_, e) =>
    if now - e.timestamp > c.config.ttlMs then
      (none,
       { c with
          entries := deleteBy Prod.fst c.entries k
          stats := { c.stats with size := c.stats.size - 1,
                                  misses := c.stats.misses + 1 } })
    else
      (some e.value,
       { c with
          entries := setBy Prod.fst (deleteBy Prod.fst c.entries k)
                       (k, { e with accessCount := e.accessCount + 1 })
          stats := { c.stats with hits := c.stats.hits + 1 } })

/-- `set(key, value)`: delete an existing key first (to update its
position); otherwise, at capacity, evict the first (oldest) map entry,
counting an eviction and decrementing the size counter; then insert the
fresh entry and increment the size counter.  Note the source does not
decrement `stats.size` when deleting the existing key. -/
def set (c : LRUCache T) (now : Nat) (k : String) (v : T) : LRUCache T :=
  let c1 : LRUCache T :=
    if (lookupBy Prod.fst c.entries k).isSome then
      { c with entries := deleteBy Prod.fst c.entries k }
    else if c.entries.length ≥ c.config.maxSize then
      match c.entries with
      | [] => c
      | (k0, _) :: _ =>
        { c with
            entries := deleteBy Prod.fst c.entries k0
            stats := { c.stats with evictions := c.stats.evictions + 1,
                                    size := c.stats.size - 1 } }
    else c
  { c1 with
      entries := setBy Prod.fst c1.entries (k, ⟨v, now, 1⟩)
      stats := { c1.stats with size := c1.stats.size + 1 } }

/-- `has(key)`: presence check with the same lazy expiry as `get`,
but no hit/miss accounting and no reordering. -/
def hasKey (c : LRUCache T) (now : Nat) (k : String) : Bool × LRUCache T :=
  match lookupBy Prod.fst c.entries k with
  | none => (false, c)
  | some (_, e) =>
    if now - e.timestamp > c.config.ttlMs then
      (false,
       { c with entries := deleteBy Prod.fst c.entries k
                stats := { c.stats with size := c.stats.size - 1 } })
    else (true, c)

/-- `delete(key)`. -/
def deleteKey (c : LRUCache T) (k : String) : Bool × LRUCache T :=
  if (lookupBy Prod.fst c.entries k).isSome then
    (true,
     { c with entries := deleteBy Prod.fst c.entries k
              stats := { c.stats with size := c.stats.size - 1 } })
  else (false, c)

/-- `clear()`: drops all entries and zeroes only the size counter. -/
def clear (c : LRUCache T) : LRUCache T :=
  { c with entries := [], stats := { c.stats with size := 0 } }

/-- `getStats()`. -/
def getStats (c : LRUCache T) : CacheStats := c.stats

/-- `prune()`: eager sweep of expired entries; afterwards the source
resyncs `stats.size` to the true map size. -/
def prune (c : LRUCache T) (now : Nat) : Nat × LRUCache T :=
  let kept := c.entries.filter (fun p => !(now - p.2.timestamp > c.config.ttlMs))
  (c.entries.length - kept.length,
   { c with entries := kept, stats := { c.stats with size := kept.length } })

/-- Scenario harness: a sequence of `set` calls (no intervening reads). -/
def setSequence (c : LRUCache T) (now : Nat) (kvs : List (String × T)) : LRUCache T :=
  kvs.foldl (fun c kv => set c now kv.1 kv.2) c

end LRUCache

/-! ## Patch engine (`packages/core/src/patch/patch-engine.ts`)

A patch here is its ordered operation list (the generated `id` and
`timestamp` fields are never read by any operation). -/

/-- `PatchOperation` from `patch/patch-types.ts`: the tagged variant over
add/remove/update × node/edge. -/
inductive PatchOperation where
  | addNode (node : GraphNode)
  | addEdge (edge : GraphEdge)
  | removeNode (nodeId : String)
  | removeEdge (edgeId : String)
  | updateNode (nodeId : String) (properties : Props)
  | updateEdge (edgeId : String) (properties : Props)
  deriving DecidableEq, Repr

/-- Per-operation error record: `(index, message)` (the operation itself,
also stored by the source, is the one at that index). -/
structure OpError where
  index : Nat
  message : String
  deriving DecidableEq, Repr

/-- `PatchResult` (minus `patchId`). `success` is true iff `errors` is empty. -/
structure PatchResult where
  success : Bool
  appliedCount : Nat
  errors : List OpError
  deriving DecidableEq, Repr

namespace PatchEngine

/-- `PatchEngine.diffProperties`: only the keys of `after` are scanned;
a key is in the delta iff its (serialized) value differs from `before`'s
(`JSON.stringify(undefined)` is unequal to every serialized value, so a
key absent from `before` always differs). -/
def diffProperties (before after : Props) : Props :=
  after.filter (fun kv => lookupBy Prod.fst before kv.1 ≠ some kv)

/-- `PatchEngine.diff`: removed nodes, removed edges, added nodes, added
edges, node updates, edge updates — in that order, each segment in
iteration order of the corresponding id set. -/
def diff (before after : Graph) : List PatchOperation :=
  (before.nodes.filter
      (fun n => ¬(lookupBy GraphNode.id after.nodes n.id).isSome)).map
    (fun n => PatchOperation.removeNode n.id)
  ++ (before.edges.filter
      (fun e => ¬(lookupBy GraphEdge.id after.edges e.id).isSome)).map
    (fun e => PatchOperation.removeEdge e.id)
  ++ (after.nodes.filter
      (fun n => ¬(lookupBy GraphNode.id before.nodes n.id).isSome)).map
    (fun n => PatchOperation.addNode n)
  ++ (after.edges.filter
      (fun e => ¬(lookupBy GraphEdge.id before.edges e.id).isSome)).map
    (fun e => PatchOperation.addEdge e)
  ++ (before.nodes.filterMap (fun bn =>
        match lookupBy GraphNode.id after.nodes bn.id with
        | some an =>
          let d := diffProperties bn.properties an.properties
          if d.isEmpty then none else some (PatchOperation.updateNode bn.id d)
        | none => none))
  ++ (before.edges.filterMap (fun be =>
        match lookupBy GraphEdge.id after.edges be.id with
        | some ae =>
          let d := diffProperties be.properties ae.properties
          if d.isEmpty then none else some (PatchOperation.updateEdge be.id d)
        | none => none))

/-- The update payload the node-update scan of `diff` emits for a
`before` node (the id paired with the property delta), if any: the node
must survive into `after` and the delta must be non-empty. -/
def nodeUpdateOf (after : Graph) (bn : GraphNode) : Option (String × Props) :=
  match lookupBy GraphNode.id after.nodes bn.id with
  | some an =>
    let d := diffProperties bn.properties an.properties
    if d.isEmpty then none else some (bn.id, d)
  | none => none

/-- The update payload the edge-update scan of `diff` emits for a
`before` edge, if any. -/
def edgeUpdateOf (after : Graph) (be : GraphEdge) : Option (String × Props) :=
  match lookupBy GraphEdge.id after.edges be.id with
  | some ae =>
    let d := diffProperties be.properties ae.properties
    if d.isEmpty then none else some (be.id, d)
  | none => none

/-- JS object spread `{...base, ...delta}`: base keys in order with
delta's values overriding, followed by delta's new keys in delta order. -/
def mergeProps (base delta : Props) : Props :=
  base.map (fun kv =>
    match lookupBy Prod.fst delta kv.1 with
    | some kv' => kv'
    | none => kv)
  ++ delta.filter (fun kv => ¬(lookupBy Prod.fst base kv.1).isSome)

/-- Working state of `PatchEngine.apply`: the node and edge maps plus the
accumulated result fields. -/
structure ApplyState where
  nodes : List GraphNode
  edges : List GraphEdge
  appliedCount : Nat
  errors : List OpError
  deriving DecidableEq, Repr

/-- One case of the `switch` in `PatchEngine.apply`, at operation index `i`. -/
def applyOp (st : ApplyState) (i : Nat) : PatchOperation → ApplyState
  | .addNode n =>
    if (lookupBy GraphNode.id st.nodes n.id).isSome then
      { st with errors := st.errors ++ [⟨i, s!"Node {n.id} already exists"⟩] }
    else
      { st with nodes := setBy GraphNode.id st.nodes n,
                appliedCount := st.appliedCount + 1 }
  | .addEdge e =>
    if (lookupBy GraphEdge.id st.edges e.id).isSome then
      { st with errors := st.errors ++ [⟨i, s!"Edge {e.id} already exists"⟩] }
    else
      { st with edges := setBy GraphEdge.id st.edges e,
                appliedCount := st.appliedCount + 1 }
  | .removeNode x =>
    if (lookupBy GraphNode.id st.nodes x).isSome then
      { st with
          nodes := deleteBy GraphNode.id st.nodes x
          -- "Also remove connected edges"
          edges := st.edges.filter (fun e => ¬(e.source = x ∨ e.target = x))
          appliedCount := st.appliedCount + 1 }
    else
      { st with errors := st.errors ++ [⟨i, s!"Node {x} not found"⟩] }
  | .removeEdge x =>
    if (lookupBy GraphEdge.id st.edges x).isSome then
      { st with edges := deleteBy GraphEdge.id st.edges x,
                appliedCount := st.appliedCount + 1 }
    else
      { st with errors := st.errors ++ [⟨i, s!"Edge {x} not found"⟩] }
  | .updateNode x props =>
    match lookupBy GraphNode.id st.nodes x with
    | some n =>
      { st with
          nodes := setBy GraphNode.id st.nodes
                     { n with properties := mergeProps n.properties props }
          appliedCount := st.appliedCount + 1 }
    | none => { st with errors := st.errors ++ [⟨i, s!"Node {x} not found"⟩] }
  | .updateEdge x props =>
    match lookupBy GraphEdge.id st.edges x with
    | some e =>
      { st with
          edges := setBy GraphEdge.id st.edges
                     { e with properties := mergeProps e.properties props }
          appliedCount := st.appliedCount + 1 }
    | none => { st with errors := st.errors ++ [⟨i, s!"Edge {x} not found"⟩] }

/-- The operation loop of `PatchEngine.apply` from index `i`. -/
def applyOps (ops : List PatchOperation) (st : ApplyState) (i : Nat) : ApplyState :=
  match ops with
  | [] => st
  | op :: rest => applyOps rest (applyOp st i op) (i + 1)

/-- `PatchEngine.apply`: seed the maps from the graph, run every
operation, and return the new graph plus the result record. -/
def apply (graph : Graph) (ops : List PatchOperation) : Graph × PatchResult :=
  let st := applyOps ops ⟨graph.nodes, graph.edges, 0, []⟩ 0
  (⟨st.nodes, st.edges⟩,
   ⟨st.errors.isEmpty, st.appliedCount, st.errors⟩)

/-- `PatchEngine.createAddPatch`: node adds then edge adds. -/
def createAddPatch (nodes : List GraphNode) (edges : List GraphEdge) :
    List PatchOperation :=
  nodes.map (fun n => PatchOperation.addNode n)
    ++ edges.map (fun e => PatchOperation.addEdge e)

/-- `PatchEngine.createRemovePatch`: edge removals then node removals. -/
def createRemovePatch (nodeIds edgeIds : List String) : List PatchOperation :=
  edgeIds.map (fun e => PatchOperation.removeEdge e)
    ++ nodeIds.map (fun n => PatchOperation.removeNode n)

end PatchEngine

/-! ## The `GraphPatch` layer (`packages/core/src/patch/index.ts`) -/

/-- `PatchOperationType`. -/
inductive PatchOperationType where
  | add
  | remove
  | update
  deriving DecidableEq, Repr

/-- `NodePatch`: operation, full node payload, optional previous node
(populated by `calculatePatch` for updates). -/
structure NodePatch where
  operation : PatchOperationType
  node : GraphNode
  previousNode : Option GraphNode := none
  deriving DecidableEq, Repr

/-- `EdgePatch`. -/
structure EdgePatch where
  operation : PatchOperationType
  edge : GraphEdge
  previousEdge : Option GraphEdge := none
  deriving DecidableEq, Repr

/-- `GraphPatch` (minus the generated `id`/`timestamp`). -/
structure GraphPatch where
  nodePatch : List NodePatch
  edgePatch : List EdgePatch
  deriving DecidableEq, Repr

/-- `nodesEqual`: id, labels (length + pointwise), and
`JSON.stringify`-equality of the properties objects, which on ordered
records is plain equality. -/
def nodesEqual (a b : GraphNode) : Bool :=
  a.id = b.id && a.labels = b.labels && a.properties = b.properties

/-- `edgesEqual`. -/
def edgesEqual (a b : GraphEdge) : Bool :=
  a.id = b.id && a.source = b.source && a.target = b.target &&
    a.type = b.type && a.properties = b.properties

/-- `calculatePatch(oldState, newState)`: adds/updates scanning the new
state, then removes scanning the old state; same for edges. -/
def calculatePatch (oldState newState : Graph) : GraphPatch :=
  { nodePatch :=
      newState.nodes.filterMap (fun newNode =>
        match lookupBy GraphNode.id oldState.nodes newNode.id with
        | none => some ⟨PatchOperationType.add, newNode, none⟩
        | some oldNode =>
          if nodesEqual oldNode newNode then none
          else some ⟨PatchOperationType.update, newNode, some oldNode⟩)
      ++ oldState.nodes.filterMap (fun oldNode =>
        if (lookupBy GraphNode.id newState.nodes oldNode.id).isSome then none
        else some ⟨PatchOperationType.remove, oldNode, none⟩)
    edgePatch :=
      newState.edges.filterMap (fun newEdge =>
        match lookupBy GraphEdge.id oldState.edges newEdge.id with
        | none => some ⟨PatchOperationType.add, newEdge, none⟩
        | some oldEdge =>
          if edgesEqual oldEdge newEdge then none
          else some ⟨PatchOperationType.update, newEdge, some oldEdge⟩)
      ++ oldState.edges.filterMap (fun oldEdge =>
        if (lookupBy GraphEdge.id newState.edges oldEdge.id).isSome then none
        else some ⟨PatchOperationType.remove, oldEdge, none⟩) }

/-- One node patch operation of `applyPatch`: add/update are `map.set`,
remove is `map.delete` (no edge cascade at this layer). -/
def applyNodePatchOp (nodes : List GraphNode) (np : NodePatch) : List GraphNode :=
  match np.operation with
  | .add | .update => setBy GraphNode.id nodes np.node
  | .remove => deleteBy GraphNode.id nodes np.node.id

/-- One edge patch operation of `applyPatch`. -/
def applyEdgePatchOp (edges : List GraphEdge) (ep : EdgePatch) : List GraphEdge :=
  match ep.operation with
  | .add | .update => setBy GraphEdge.id edges ep.edge
  | .remove => deleteBy GraphEdge.id edges ep.edge.id

/-- `applyPatch(state, patch)`: node patches in order, then edge patches
in order, over maps seeded from the state. -/
def applyPatch (state : Graph) (patch : GraphPatch) : Graph :=
  { nodes := patch.nodePatch.foldl applyNodePatchOp state.nodes
    edges := patch.edgePatch.foldl applyEdgePatchOp state.edges }

/-- `invertPatch`: add ↔ remove with the same payload; update swaps
`node` and `previousNode` (the source reads `previousNode!`, whose
absence would flow `undefined` into the node slot — modelled by a junk
default). -/
def invertPatch (patch : GraphPatch) : GraphPatch :=
  { nodePatch := patch.nodePatch.map (fun np =>
      match np.operation with
      | .add => ⟨PatchOperationType.remove, np.node, none⟩
      | .remove => ⟨PatchOperationType.add, np.node, none⟩
      | .update =>
        ⟨PatchOperationType.update, np.previousNode.getD default, some np.node⟩)
    edgePatch := patch.edgePatch.map (fun ep =>
      match ep.operation with
      | .add => ⟨PatchOperationType.remove, ep.edge, none⟩
      | .remove => ⟨PatchOperationType.add, ep.edge, none⟩
      | .update =>
        ⟨PatchOperationType.update, ep.previousEdge.getD default, some ep.edge⟩) }

/-- `isPatchEmpty`. -/
def isPatchEmpty (patch : GraphPatch) : Bool :=
  patch.nodePatch.isEmpty && patch.edgePatch.isEmpty

/-- The `byId` accumulation step of both consolidation functions:
`byId.set(id, existing.push(p))` — an existing group grows in place, a
new id is appended (JS `Map` key insertion order). -/
def pushById (key : α → String) (acc : List (String × List α)) (p : α) :
    List (String × List α) :=
  if (lookupBy Prod.fst acc (key p)).isSome then
    acc.map (fun g => if g.1 = key p then (g.1, g.2 ++ [p]) else g)
  else
    acc ++ [(key p, [p])]

/-- The per-group consolidation of `consolidateNodePatches`: a singleton
is kept; otherwise only the first and last operations are compared. -/
def consolidateNodeGroup (ps : List NodePatch) : Option NodePatch :=
  match ps with
  | [] => none
  | [p] => some p
  | first :: rest =>
    let last := (first :: rest).getLast (by simp)
    if first.operation = PatchOperationType.add ∧
        last.operation = PatchOperationType.remove then
      none
    else if first.operation = PatchOperationType.remove ∧
        last.operation = PatchOperationType.add then
      some ⟨PatchOperationType.update, last.node, none⟩
    else
      some last

/-- `consolidateNodePatches`. -/
def consolidateNodePatches (patches : List NodePatch) : List NodePatch :=
  (patches.foldl (pushById (fun np => np.node.id)) []).filterMap
    (fun g => consolidateNodeGroup g.2)

/-- Per-group consolidation for edges. -/
def consolidateEdgeGroup (ps : List EdgePatch) : Option EdgePatch :=
  match ps with
  | [] => none
  | [p] => some p
  | first :: rest =>
    let last := (first :: rest).getLast (by simp)
    if first.operation = PatchOperationType.add ∧
        last.operation = PatchOperationType.remove then
      none
    else if first.operation = PatchOperationType.remove ∧
        last.operation = PatchOperationType.add then
      some ⟨PatchOperationType.update, last.edge, none⟩
    else
      some last

/-- `consolidateEdgePatches`. -/
def consolidateEdgePatches (patches : List EdgePatch) : List EdgePatch :=
  (patches.foldl (pushById (fun ep => ep.edge.id)) []).filterMap
    (fun g => consolidateEdgeGroup g.2)

/-- `mergePatches`: concatenate all operations, then consolidate per id. -/
def mergePatches (patches : List GraphPatch) : GraphPatch :=
  { nodePatch := consolidateNodePatches (patches.flatMap GraphPatch.nodePatch)
    edgePatch := consolidateEdgePatches (patches.flatMap GraphPatch.edgePatch) }

/-! ## Session managers (`packages/core/src/session/index.ts`)

Two session classes live in this module: `GraphSession` (built on the
`GraphPatch` layer, `LRUCache` and `LimitsEnforcer`) and
`SessionManager` (built on `PatchEngine`).  Connectors are external
(§6 of the spec): the data a connector returns is passed in as a
parameter, and a session's attached connector is modelled by its id. -/

/-- `SessionConfig` from `types/common.ts` (used by `GraphSession`;
`enableAccelerator` is never read by the embedded operations). -/
structure SessionConfig where
  maxNodes : Nat
  maxEdges : Nat
  maxElementsPerFetch : Nat
  cacheTtlMs : Nat
  deriving DecidableEq, Repr

/-- Errors `GraphSession.executeQuery` can throw: `ValidationError`
(no connector) or the limiter's `LimitExceededError`. -/
inductive SessionError where
  | validation (message : String)
  | limitExceeded (limitType : String) (currentValue maxValue : Nat)
  deriving DecidableEq, Repr

/-- A structured query, as far as the cache key derivation is concerned:
its type tag and its parameter record (values by their serialized form). -/
structure Query where
  type : String
  params : List (String × String)
  deriving DecidableEq, Repr

/-- Insertion of one parameter into a key-sorted parameter list. -/
def insertSortedParam (kv : String × String) :
    List (String × String) → List (String × String)
  | [] => [kv]
  | x :: xs => if kv.1 ≤ x.1 then kv :: x :: xs else x :: insertSortedParam kv xs

/-- `generateQueryCacheKey`: connector id, query type, and the
parameters serialized after sorting the keys, so the same logical query
always yields the same key. -/
def generateQueryCacheKey (connectorId queryType : String)
    (params : List (String × String)) : String :=
  let sorted := params.foldr insertSortedParam []
  connectorId ++ ":" ++ queryType ++ ":"
    ++ String.intercalate "," (sorted.map (fun kv => kv.1 ++ "=" ++ kv.2))

/-- The `GraphSession` class state: graph, histories, query cache,
limiter running counts, and the attached connector's id (if any). -/
structure GraphSession where
  state : Graph
  patchHistory : List GraphPatch
  undoStack : List GraphPatch
  cache : LRUCache Graph
  limiterNodeCount : Nat
  limiterEdgeCount : Nat
  connectorId : Option String
  config : SessionConfig
  deriving DecidableEq, Repr

namespace GraphSession

/-- `mergeData`: union the incoming data into the working maps, diff,
and commit (snapshot, history push, redo clear, limiter counts) only if
the patch is non-empty. -/
def mergeData (s : GraphSession) (data : Graph) : GraphSession :=
  let nodeMap := data.nodes.foldl (fun m n => setBy GraphNode.id m n) s.state.nodes
  let edgeMap := data.edges.foldl (fun m e => setBy GraphEdge.id m e) s.state.edges
  let newState : Graph := ⟨nodeMap, edgeMap⟩
  let patch := calculatePatch s.state newState
  if !(isPatchEmpty patch) then
    { s with
        state := newState
        patchHistory := s.patchHistory ++ [patch]
        undoStack := []
        limiterNodeCount := newState.nodes.length
        limiterEdgeCount := newState.edges.length }
  else s

/-- `executeQuery`: requires a connector; on a live cache hit returns
the cached graph (only the cache's own bookkeeping changes); on a miss
the connector result (`connResult`) is limit-checked against the
session's running counts, merged, and cached. -/
def executeQuery (s : GraphSession) (now : Nat) (q : Query) (connResult : Graph) :
    Except SessionError (Graph × GraphSession) :=
  match s.connectorId with
  | none => Except.error (SessionError.validation "No connector attached to session")
  | some cid =>
    let cacheKey := generateQueryCacheKey cid q.type q.params
    match s.cache.get now cacheKey with
    | (some cached, cache') => Except.ok (cached, { s with cache := cache' })
    | (none, cache') =>
      let s1 := { s with cache := cache' }
      let newNodes := connResult.nodes.filter
        (fun n => !(s1.state.nodes.any (fun ex => ex.id = n.id)))
      let newEdges := connResult.edges.filter
        (fun e => !(s1.state.edges.any (fun ex => ex.id = e.id)))
      if s1.limiterNodeCount + newNodes.length > s1.config.maxNodes then
        Except.error (SessionError.limitExceeded "maxNodes"
          s1.limiterNodeCount s1.config.maxNodes)
      else if s1.limiterEdgeCount + newEdges.length > s1.config.maxEdges then
        Except.error (SessionError.limitExceeded "maxEdges"
          s1.limiterEdgeCount s1.config.maxEdges)
      else
        let s2 := mergeData s1 connResult
        Except.ok (connResult,
          { s2 with cache := s2.cache.set now cacheKey connResult })

/-- `removeNodes(nodeIds)`: filter out the nodes and every edge whose
source or target is removed, diff, commit unconditionally. -/
def removeNodes (s : GraphSession) (nodeIds : List String) :
    GraphSession × GraphPatch :=
  let remainingNodes := s.state.nodes.filter (fun n => !(nodeIds.contains n.id))
  let remainingEdges := s.state.edges.filter
    (fun e => !(nodeIds.contains e.source) && !(nodeIds.contains e.target))
  let newState : Graph := ⟨remainingNodes, remainingEdges⟩
  let patch := calculatePatch s.state newState
  ({ s with
      state := newState
      patchHistory := s.patchHistory ++ [patch]
      undoStack := []
      limiterNodeCount := newState.nodes.length
      limiterEdgeCount := newState.edges.length },
   patch)

end GraphSession

/-- `SessionLimits` (the `SessionManager` side of `session/index.ts`). -/
structure SessionLimits where
  maxNodes : Nat
  maxEdges : Nat
  maxNodesPerQuery : Nat
  maxEdgesPerQuery : Nat
  maxNeighborhoodDepth : Nat
  maxPathLength : Nat
  deriving DecidableEq, Repr

/-- `SessionLimitError` from `errors/error-types.ts`: carries the limit
type, the configured limit, and the attempted count. -/
structure SessionLimitError where
  limitType : String
  limit : Nat
  attempted : Nat
  deriving DecidableEq, Repr

/-- The `SessionManager` class state.  Its `CacheManager` (a module not
present under `src/`) is never touched by `validateLimits`, `addData`
or `removeData` and is not part of this model. -/
structure SessionManager where
  limits : SessionLimits
  graph : Graph
  queryCount : Nat
  lastActivityAt : Nat
  deriving DecidableEq, Repr

namespace SessionManager

/-- `validateLimits(nodes, edges)`: per-query ceilings against the raw
batch sizes first, then total ceilings against existing + net-new
(deduplicated) counts; the first violated check throws. -/
def validateLimits (sm : SessionManager) (nodes : List GraphNode)
    (edges : List GraphEdge) : Option SessionLimitError :=
  if nodes.length > sm.limits.maxNodesPerQuery then
    some ⟨"maxNodesPerQuery", sm.limits.maxNodesPerQuery, nodes.length⟩
  else if edges.length > sm.limits.maxEdgesPerQuery then
    some ⟨"maxEdgesPerQuery", sm.limits.maxEdgesPerQuery, edges.length⟩
  else
    let newNodes := nodes.filter
      (fun n => !(lookupBy GraphNode.id sm.graph.nodes n.id).isSome)
    let newEdges := edges.filter
      (fun e => !(lookupBy GraphEdge.id sm.graph.edges e.id).isSome)
    let totalNodes := sm.graph.nodes.length + newNodes.length
    let totalEdges := sm.graph.edges.length + newEdges.length
    if totalNodes > sm.limits.maxNodes then
      some ⟨"maxNodes", sm.limits.maxNodes, totalNodes⟩
    else if totalEdges > sm.limits.maxEdges then
      some ⟨"maxEdges", sm.limits.maxEdges, totalEdges⟩
    else none

/-- `addData(nodes, edges)`: validate (throwing aborts before any
mutation — rendered as `Except.error` with no successor state), then
build an add patch, apply it, and commit graph/queryCount/activity. -/
def addData (sm : SessionManager) (now : Nat) (nodes : List GraphNode)
    (edges : List GraphEdge) :
    Except SessionLimitError (SessionManager × List PatchOperation × PatchResult) :=
  match validateLimits sm nodes edges with
  | some e => Except.error e
  | none =>
    let patch := PatchEngine.createAddPatch nodes edges
    let res := PatchEngine.apply sm.graph patch
    Except.ok
      ({ sm with graph := res.1, queryCount := sm.queryCount + 1,
                 lastActivityAt := now },
       patch, res.2)

/-- `removeData(nodeIds, edgeIds)`: build a remove patch (edges first)
and apply it; no limit validation. -/
def removeData (sm : SessionManager) (now : Nat) (nodeIds edgeIds : List String) :
    SessionManager × List PatchOperation × PatchResult :=
  let patch := PatchEngine.createRemovePatch nodeIds edgeIds
  let res := PatchEngine.apply sm.graph patch
  ({ sm with graph := res.1, lastActivityAt := now }, patch, res.2)

end SessionManager

/-! ## Sampling fallback (`randomSample` in the accelerator fallbacks) -/

/-- `SampleResult` from the accelerator protocol. -/
structure SampleResult where
  sampledNodes : List GraphNode
  sampledEdges : List GraphEdge
  deriving DecidableEq, Repr

/-- `randomSample(data, count)`.  The source draws `indices` by a
Fisher–Yates shuffle of `[0, …, nodes.length)` seeded from
`Math.random`; the shuffle outcome — an arbitrary permutation of that
range — is the `indices` parameter here, so a theorem quantifying over
all permutations covers every outcome of the random choices.  It then
keeps the first `min(count, |nodes|)` indices, maps them to nodes, and
filters the edges to those with both endpoints in the sampled id set. -/
def randomSample (data : Graph) (count : Nat) (indices : List Nat) : SampleResult :=
  let nodeCount := min count data.nodes.length
  let selectedIndices := indices.take nodeCount
  let sampledNodes := selectedIndices.map (fun i => data.nodes.getD i default)
  let sampledNodeIds := sampledNodes.map GraphNode.id
  let sampledEdges := data.edges.filter
    (fun e => sampledNodeIds.contains e.source && sampledNodeIds.contains e.target)
  ⟨sampledNodes, sampledEdges⟩

/-! ## Snapshot equivalence

"Equal snapshots" in the round-trip properties: same node set and edge
set keyed by id, nodes compared by id/labels/properties, edges by
id/endpoints/type/properties, property records compared as maps (key
order irrelevant, values by deep — serialized — equality). -/

/-- Two property records agree as maps. -/
def propsEquiv (p q : Props) : Prop :=
  ∀ k, lookupBy Prod.fst p k = lookupBy Prod.fst q k

/-- Node comparison: id, labels, properties-as-map. -/
def nodeMatch (m n : GraphNode) : Prop :=
  m.id = n.id ∧ m.labels = n.labels ∧ propsEquiv m.properties n.properties

/-- Edge comparison: id, endpoints, type, properties-as-map. -/
def edgeMatch (d e : GraphEdge) : Prop :=
  d.id = e.id ∧ d.source = e.source ∧ d.target = e.target ∧
    d.type = e.type ∧ propsEquiv d.properties e.properties

/-- Lift a relation to `Option`. -/
def optionRel (r : α → α → Prop) : Option α → Option α → Prop
  | some a, some b => r a b
  | none, none => True
  | _, _ => False

/-- Snapshot equivalence: the id-keyed lookups agree up to
`nodeMatch`/`edgeMatch`. -/
def graphEquiv (g h : Graph) : Prop :=
  (∀ i, optionRel nodeMatch (lookupBy GraphNode.id g.nodes i)
      (lookupBy GraphNode.id h.nodes i)) ∧
  (∀ i, optionRel edgeMatch (lookupBy GraphEdge.id g.edges i)
      (lookupBy GraphEdge.id h.edges i))

/-- Strict snapshot equivalence: the id-keyed lookups agree on the nose
(same payloads, order of storage aside). -/
def graphLookupEq (g h : Graph) : Prop :=
  (∀ i, lookupBy GraphNode.id g.nodes i = lookupBy GraphNode.id h.nodes i) ∧
  (∀ i, lookupBy GraphEdge.id g.edges i = lookupBy GraphEdge.id h.edges i)

/-! ## Predicates used to state the claims -/

/-- Is this a remove-node operation? -/
def PatchOperation.isRemoveNodeOp : PatchOperation → Bool
  | .removeNode _ => true
  | _ => false

/-- Is this a remove-edge operation? -/
def PatchOperation.isRemoveEdgeOp : PatchOperation → Bool
  | .removeEdge _ => true
  | _ => false

/-- The ordering rule of §3 of the spec, relative to the graph `g` the
patch was built from: whenever the patch removes a node and also removes
an edge of `g` referencing that node, the edge removal comes first. -/
def edgeRemovalsPrecedeNodeRemovals (g : Graph) (ops : List PatchOperation) : Prop :=
  ∀ (i j : Nat) (hi : i < ops.length) (hj : j < ops.length) (x eId : String),
    ops.get ⟨j, hj⟩ = PatchOperation.removeNode x →
    ops.get ⟨i, hi⟩ = PatchOperation.removeEdge eId →
    (∃ e ∈ g.edges, e.id = eId ∧ (e.source = x ∨ e.target = x)) →
    i < j

/-- Modelled from the spec (§3 `PatchResult`, §4.3 `apply`): a patch
"applies successfully" when no operation would be recorded as an error —
adds hit absent ids, removes and updates hit present ids.  (The
`GraphPatch`-layer `applyPatch` itself reports no errors; this is the
spec's success notion used by the undo round-trip property.) -/
def appliesSuccessfully (S : Graph) (P : GraphPatch) : Bool :=
  P.nodePatch.all (fun np =>
    match np.operation with
    | .add => !(lookupBy GraphNode.id S.nodes np.node.id).isSome
    | .remove | .update => (lookupBy GraphNode.id S.nodes np.node.id).isSome) &&
  P.edgePatch.all (fun ep =>
    match ep.operation with
    | .add => !(lookupBy GraphEdge.id S.edges ep.edge.id).isSome
    | .remove | .update => (lookupBy GraphEdge.id S.edges ep.edge.id).isSome)

/-- The claim's side condition: every update operation carries
previous-value data. -/
def updatesCarryPrev (P : GraphPatch) : Bool :=
  P.nodePatch.all (fun np =>
    np.operation ≠ PatchOperationType.update || np.previousNode.isSome) &&
  P.edgePatch.all (fun ep =>
    ep.operation ≠ PatchOperationType.update || ep.previousEdge.isSome)

/-- A node operation is faithful to snapshot `S` (as the operations of
`calculatePatch S _` are): an add hits an absent id, a remove carries
exactly the node stored in `S`, an update carries as `previousNode`
exactly the node stored in `S` under the same id. -/
def nodePatchFaithful (S : Graph) (np : NodePatch) : Bool :=
  match np.operation with
  | .add => !(lookupBy GraphNode.id S.nodes np.node.id).isSome
  | .remove => lookupBy GraphNode.id S.nodes np.node.id == some np.node
  | .update =>
    match np.previousNode with
    | some p => p.id == np.node.id &&
        lookupBy GraphNode.id S.nodes np.node.id == some p
    | none => false

/-- Edge analogue of `nodePatchFaithful`. -/
def edgePatchFaithful (S : Graph) (ep : EdgePatch) : Bool :=
  match ep.operation with
  | .add => !(lookupBy GraphEdge.id S.edges ep.edge.id).isSome
  | .remove => lookupBy GraphEdge.id S.edges ep.edge.id == some ep.edge
  | .update =>
    match ep.previousEdge with
    | some p => p.id == ep.edge.id &&
        lookupBy GraphEdge.id S.edges ep.edge.id == some p
    | none => false

/-- The net result of one node patch operation on its own id:
add/update store the payload, remove clears it. -/
def nodePatchEffect (np : NodePatch) : Option GraphNode :=
  match np.operation with
  | .add | .update => some np.node
  | .remove => none

/-- Edge analogue of `nodePatchEffect`. -/
def edgePatchEffect (ep : EdgePatch) : Option GraphEdge :=
  match ep.operation with
  | .add | .update => some ep.edge
  | .remove => none

/-- The keys of a list in first-occurrence order (the iteration order of
a JS `Map` whose keys were inserted in list order). -/
def firstKeys : List String → List String
  | [] => []
  | k :: rest => k :: firstKeys (rest.filter (fun x => x ≠ k))
termination_by l => l.length
decreasing_by
  simp only [List.length_cons]
  exact Nat.lt_succ_of_le (List.length_filter_le _ _)

/-- Grouping characterization used to state the merge claim: one group
per id, ids in first-appearance order, each group the (ordered)
subsequence of elements with that id. -/
def groupsById (key : α → String) (xs : List α) : List (String × List α) :=
  (firstKeys (xs.map key)).map (fun i => (i, xs.filter (fun a => key a = i)))

/-! # Claims -/

/-! ## C5 — `addData` and `maxNodesPerQuery` -/

/-- C5: for every session state and every node batch longer than the
configured `maxNodesPerQuery`, `addData` raises `SessionLimitError` with
`limitType = "maxNodesPerQuery"`, carrying the limit and the attempted
count.  The error return is produced before any mutation: no successor
state exists, so the session's graph, query count, and activity fields
are exactly as before the call. -/
theorem addData_maxNodesPerQuery (sm : SessionManager) (now : Nat)
    (nodes : List GraphNode) (edges : List GraphEdge)
    (h : nodes.length > sm.limits.maxNodesPerQuery) :
    SessionManager.addData sm now nodes edges =
      Except.error ⟨"maxNodesPerQuery", sm.limits.maxNodesPerQuery, nodes.length⟩ := by
  unfold SessionManager.addData SessionManager.validateLimits
  simp [h]

/-- Witness for C5 at a concrete session and batch. -/
theorem addData_maxNodesPerQuery_witness :
    SessionManager.addData ⟨⟨1, 1, 1, 1, 1, 1⟩, ⟨[], []⟩, 0, 0⟩ 7
        [⟨"a", [], []⟩, ⟨"b", [], []⟩] [] =
      Except.error ⟨"maxNodesPerQuery", 1, 2⟩ :=
  addData_maxNodesPerQuery _ 7 _ _ (by decide)

/-! ## C9 — the cache size statistic -/

/-- C9 (failing input): overwriting an existing key leaves `stats.size`
overcounting — the source deletes the old entry without decrementing the
counter and then increments it for the re-insert.  After two `set` calls
on the same key of a fresh cache, `stats().size` is 2 while exactly one
entry is stored. -/
theorem lruCache_stats_size_overcounts_on_overwrite :
    (LRUCache.getStats
        (LRUCache.set (LRUCache.set (LRUCache.empty ⟨10, 1000⟩ : LRUCache Nat) 0 "k" 0)
          0 "k" 1)).size = 2 ∧
    (LRUCache.set (LRUCache.set (LRUCache.empty ⟨10, 1000⟩ : LRUCache Nat) 0 "k" 0)
        0 "k" 1).entries.length = 1 := by
  decide

/-! ## C10 — cached query results leave the session untouched -/

/-- A live cache hit: `get` returns the stored value, moves the entry to
the back with a bumped access count, and counts a hit. -/
theorem LRUCache.get_hit {T : Type} (c : LRUCache T) (now : Nat) (k : String)
    (p : String × CacheEntry T)
    (hit : lookupBy Prod.fst c.entries k = some p)
    (live : ¬(now - p.2.timestamp > c.config.ttlMs)) :
    c.get now k =
      (some p.2.value,
       { c with
          entries := setBy Prod.fst (deleteBy Prod.fst c.entries k)
                       (k, { p.2 with accessCount := p.2.accessCount + 1 })
          stats := { c.stats with hits := c.stats.hits + 1 } }) := by
  obtain ⟨k', e⟩ := p
  unfold LRUCache.get
  rw [hit]
  simp only []
  rw [if_neg live]

/-- C10: on a connected session, a query whose cache key has a live
cached entry returns the cached graph data; only the cache field of the
session changes (its hit/ordering bookkeeping) — the snapshot, patch
history, undo stack, and limiter counts are exactly those of the
original session (`{ s with cache := … }` updates no other field), and
the cached result is never re-merged. -/
theorem executeQuery_cache_hit_frame (s : GraphSession) (now : Nat) (q : Query)
    (connResult : Graph) (cid : String) (p : String × CacheEntry Graph)
    (hconn : s.connectorId = some cid)
    (hit : lookupBy Prod.fst s.cache.entries
             (generateQueryCacheKey cid q.type q.params) = some p)
    (live : ¬(now - p.2.timestamp > s.cache.config.ttlMs)) :
    GraphSession.executeQuery s now q connResult =
      Except.ok (p.2.value,
        { s with cache :=
            (s.cache.get now (generateQueryCacheKey cid q.type q.params)).2 }) := by
  unfold GraphSession.executeQuery
  rw [hconn]
  dsimp only
  rw [LRUCache.get_hit s.cache now _ p hit live]

/-- Witness for C10 at a concrete one-entry cache. -/
theorem executeQuery_cache_hit_frame_witness :
    GraphSession.executeQuery
        ⟨⟨[], []⟩, [], [],
         ⟨[("c:t:", ⟨⟨[], []⟩, 0, 1⟩)], ⟨0, 0, 0, 1, 5⟩, ⟨5, 100⟩⟩,
         0, 0, some "c", ⟨10, 10, 10, 100⟩⟩ 3 ⟨"t", []⟩ ⟨[], []⟩ =
      Except.ok (⟨[], []⟩,
        { (⟨⟨[], []⟩, [], [],
           ⟨[("c:t:", ⟨⟨[], []⟩, 0, 1⟩)], ⟨0, 0, 0, 1, 5⟩, ⟨5, 100⟩⟩,
           0, 0, some "c", ⟨10, 10, 10, 100⟩⟩ : GraphSession) with
          cache :=
            ((⟨[("c:t:", ⟨⟨[], []⟩, 0, 1⟩)], ⟨0, 0, 0, 1, 5⟩, ⟨5, 100⟩⟩ :
                LRUCache Graph).get 3 (generateQueryCacheKey "c" "t" [])).2 }) :=
  executeQuery_cache_hit_frame _ 3 _ _ "c" ("c:t:", ⟨⟨[], []⟩, 0, 1⟩)
    rfl (by decide) (by decide)

/-! ## C8 — random sampling -/

/-- C8: for every graph (with the data model's unique node ids), every
count, and every outcome of the Fisher–Yates shuffle (any permutation
`indices` of `[0, …, |nodes|)`), `randomSample` returns exactly
`min(count, |nodes|)` nodes, all drawn from the graph and pairwise
distinct, and its edges are exactly the edges of the graph with both
endpoints in the sampled id set. -/
theorem randomSample_spec (data : Graph) (count : Nat) (indices : List Nat)
    (hperm : indices.Perm (List.range data.nodes.length))
    (hids : NodupKeys GraphNode.id data.nodes) :
    (randomSample data count indices).sampledNodes.length
        = min count data.nodes.length ∧
    (∀ n ∈ (randomSample data count indices).sampledNodes, n ∈ data.nodes) ∧
    ((randomSample data count indices).sampledNodes.map GraphNode.id).Nodup ∧
    (∀ e, e ∈ (randomSample data count indices).sampledEdges ↔
      e ∈ data.edges ∧
      e.source ∈ (randomSample data count indices).sampledNodes.map GraphNode.id ∧
      e.target ∈ (randomSample data count indices).sampledNodes.map GraphNode.id) := by
  have hlen : indices.length = data.nodes.length := by
    simpa using hperm.length_eq
  have hnodup : indices.Nodup := hperm.nodup_iff.mpr (List.nodup_range _)
  have hmem : ∀ i ∈ indices, i < data.nodes.length := by
    intro i hi
    exact List.mem_range.mp (hperm.mem_iff.mp hi)
  have hsel_sub : ∀ i ∈ indices.take (min count data.nodes.length), i ∈ indices :=
    fun i hi => List.take_subset _ _ hi
  have hsel_nodup : (indices.take (min count data.nodes.length)).Nodup :=
    (List.take_sublist _ _).nodup hnodup
  have hgetD : ∀ i, i < data.nodes.length →
      ∀ (h : i < data.nodes.length),
        data.nodes.getD i default = data.nodes.get ⟨i, h⟩ := by
    intro i hi h
    rw [List.getD_eq_getElem?_getD, List.getElem?_eq_getElem h]
    rfl
  unfold randomSample
  refine ⟨?_, ?_, ?_, ?_⟩
  · simp only [List.length_map, List.length_take, hlen]
    omega
  · intro n hn
    simp only [List.mem_map] at hn
    obtain ⟨i, hi, rfl⟩ := hn
    have hilt := hmem i (hsel_sub i hi)
    rw [hgetD i hilt hilt]
    exact List.get_mem _ _ _
  · rw [List.map_map]
    refine List.Nodup.map_on ?_ hsel_nodup
    intro x hx y hy hxy
    have hxlt := hmem x (hsel_sub x hx)
    have hylt := hmem y (hsel_sub y hy)
    simp only [Function.comp] at hxy
    rw [hgetD x hxlt hxlt, hgetD y hylt hylt] at hxy
    have hx' : (data.nodes.map GraphNode.id).get ⟨x, by simpa using hxlt⟩
        = (data.nodes.map GraphNode.id).get ⟨y, by simpa using hylt⟩ := by
      simp only [List.get_map]
      exact hxy
    have := (List.Nodup.get_inj_iff hids).mp hx'
    exact congrArg Fin.val this
  · intro e
    simp only [List.mem_filter, Bool.and_eq_true, List.elem_iff]

/-- Witness for C8: a 5-node graph sampled at count 3 under one concrete
shuffle outcome. -/
theorem randomSample_spec_witness :
    (randomSample (⟨[⟨"a", [], []⟩, ⟨"b", [], []⟩, ⟨"c", [], []⟩, ⟨"d", [], []⟩, ⟨"e", [], []⟩], [⟨"e1", "a", "c", "t", []⟩, ⟨"e2", "a", "d", "t", []⟩]⟩ : QueryScape.Graph) 3 [2, 0, 4, 1, 3]).sampledNodes.length = min 3 (⟨[⟨"a", [], []⟩, ⟨"b", [], []⟩, ⟨"c", [], []⟩, ⟨"d", [], []⟩, ⟨"e", [], []⟩], [⟨"e1", "a", "c", "t", []⟩, ⟨"e2", "a", "d", "t", []⟩]⟩ : QueryScape.Graph).nodes.length ∧
    (∀ n ∈ (randomSample (⟨[⟨"a", [], []⟩, ⟨"b", [], []⟩, ⟨"c", [], []⟩, ⟨"d", [], []⟩, ⟨"e", [], []⟩], [⟨"e1", "a", "c", "t", []⟩, ⟨"e2", "a", "d", "t", []⟩]⟩ : QueryScape.Graph) 3 [2, 0, 4, 1, 3]).sampledNodes, n ∈ (⟨[⟨"a", [], []⟩, ⟨"b", [], []⟩, ⟨"c", [], []⟩, ⟨"d", [], []⟩, ⟨"e", [], []⟩], [⟨"e1", "a", "c", "t", []⟩, ⟨"e2", "a", "d", "t", []⟩]⟩ : QueryScape.Graph).nodes) ∧
    ((randomSample (⟨[⟨"a", [], []⟩, ⟨"b", [], []⟩, ⟨"c", [], []⟩, ⟨"d", [], []⟩, ⟨"e", [], []⟩], [⟨"e1", "a", "c", "t", []⟩, ⟨"e2", "a", "d", "t", []⟩]⟩ : QueryScape.Graph) 3 [2, 0, 4, 1, 3]).sampledNodes.map GraphNode.id).Nodup ∧
    (∀ e, e ∈ (randomSample (⟨[⟨"a", [], []⟩, ⟨"b", [], []⟩, ⟨"c", [], []⟩, ⟨"d", [], []⟩, ⟨"e", [], []⟩], [⟨"e1", "a", "c", "t", []⟩, ⟨"e2", "a", "d", "t", []⟩]⟩ : QueryScape.Graph) 3 [2, 0, 4, 1, 3]).sampledEdges ↔
      e ∈ (⟨[⟨"a", [], []⟩, ⟨"b", [], []⟩, ⟨"c", [], []⟩, ⟨"d", [], []⟩, ⟨"e", [], []⟩], [⟨"e1", "a", "c", "t", []⟩, ⟨"e2", "a", "d", "t", []⟩]⟩ : QueryScape.Graph).edges ∧
      e.source ∈ (randomSample (⟨[⟨"a", [], []⟩, ⟨"b", [], []⟩, ⟨"c", [], []⟩, ⟨"d", [], []⟩, ⟨"e", [], []⟩], [⟨"e1", "a", "c", "t", []⟩, ⟨"e2", "a", "d", "t", []⟩]⟩ : QueryScape.Graph) 3 [2, 0, 4, 1, 3]).sampledNodes.map GraphNode.id ∧
      e.target ∈ (randomSample (⟨[⟨"a", [], []⟩, ⟨"b", [], []⟩, ⟨"c", [], []⟩, ⟨"d", [], []⟩, ⟨"e", [], []⟩], [⟨"e1", "a", "c", "t", []⟩, ⟨"e2", "a", "d", "t", []⟩]⟩ : QueryScape.Graph) 3 [2, 0, 4, 1, 3]).sampledNodes.map GraphNode.id) :=
  randomSample_spec (⟨[⟨"a", [], []⟩, ⟨"b", [], []⟩, ⟨"c", [], []⟩, ⟨"d", [], []⟩, ⟨"e", [], []⟩], [⟨"e1", "a", "c", "t", []⟩, ⟨"e2", "a", "d", "t", []⟩]⟩ : QueryScape.Graph) 3 [2, 0, 4, 1, 3] (by decide) (by decide)

/-! ## C6 — LRU eviction is by access order -/

/-- Deleting an absent key is the identity. -/
theorem deleteBy_of_fresh {key : α → String} {l : List α} {i : String}
    (h : ∀ a ∈ l, key a ≠ i) : deleteBy key l i = l := by
  unfold deleteBy
  rw [List.filter_eq_self]
  intro a ha
  simpa using h a ha

/-- Setting a fresh key appends. -/
theorem setBy_fresh {key : α → String} {l : List α} {a : α}
    (h : lookupBy key l (key a) = none) : setBy key l a = l ++ [a] := by
  unfold setBy
  rw [h]
  rfl

/-- `set` of a fresh key below capacity: plain append, no eviction. -/
theorem LRUCache.set_fresh_roomy {T : Type} (c : LRUCache T) (now : Nat)
    (k : String) (v : T)
    (hfresh : lookupBy Prod.fst c.entries k = none)
    (hroom : c.entries.length < c.config.maxSize) :
    c.set now k v =
      { c with entries := c.entries ++ [(k, ⟨v, now, 1⟩)],
               stats := { c.stats with size := c.stats.size + 1 } } := by
  have hne : ¬((lookupBy Prod.fst c.entries k).isSome = true) := by
    rw [hfresh]
    simp
  have hcap : ¬(c.entries.length ≥ c.config.maxSize) := by omega
  unfold LRUCache.set
  rw [if_neg hne, if_neg hcap]
  dsimp only
  rw [setBy_fresh hfresh]

/-- `set` of a fresh key at capacity: the front (oldest) map entry is
evicted, the eviction counter is bumped, and the new entry is appended. -/
theorem LRUCache.set_fresh_evicts {T : Type} (c : LRUCache T) (now : Nat)
    (k : String) (v : T) (k0 : String) (e0 : CacheEntry T)
    (rest : List (String × CacheEntry T))
    (hfresh : lookupBy Prod.fst c.entries k = none)
    (hfull : c.entries.length ≥ c.config.maxSize)
    (hshape : c.entries = (k0, e0) :: rest)
    (hnd : NodupKeys Prod.fst c.entries) :
    c.set now k v =
      { c with
          entries := rest ++ [(k, ⟨v, now, 1⟩)]
          stats := { c.stats with evictions := c.stats.evictions + 1,
                                  size := c.stats.size - 1 + 1 } } := by
  have hrestnd : ∀ p ∈ rest, Prod.fst p ≠ k0 := by
    rw [hshape] at hnd
    intro p hp he
    have : k0 ∈ rest.map Prod.fst := he ▸ List.mem_map_of_mem _ hp
    exact (List.nodup_cons.mp hnd).1 this
  have hdel : deleteBy Prod.fst ((k0, e0) :: rest) k0 = rest := by
    unfold deleteBy
    rw [List.filter_cons]
    simp only [bne_self_eq_false, Bool.false_eq_true, if_false]
    exact deleteBy_of_fresh hrestnd
  have hfresh' : lookupBy Prod.fst rest k = none := by
    rw [lookupBy_eq_none]
    intro p hp
    exact lookupBy_eq_none.mp hfresh p (hshape ▸ List.mem_cons_of_mem _ hp)
  have hne : ¬((lookupBy Prod.fst c.entries k).isSome = true) := by
    rw [hfresh]
    simp
  unfold LRUCache.set
  rw [if_neg hne, if_pos hfull, hshape]
  dsimp only
  rw [hdel, setBy_fresh hfresh']

/-- Filling a cache with fresh, distinct keys within capacity appends
them in order, evicting nothing. -/
theorem LRUCache.setSequence_fill {T : Type} (now : Nat) :
    ∀ (kvs : List (String × T)) (c : LRUCache T),
      (∀ kv ∈ kvs, lookupBy Prod.fst c.entries kv.1 = none) →
      (kvs.map Prod.fst).Nodup →
      c.entries.length + kvs.length ≤ c.config.maxSize →
      LRUCache.setSequence c now kvs =
        { c with
            entries := c.entries ++ kvs.map (fun kv => (kv.1, ⟨kv.2, now, 1⟩))
            stats := { c.stats with size := c.stats.size + kvs.length } }
  | [], c => by
    intro _ _ _
    simp [LRUCache.setSequence]
  | kv :: rest, c => by
    intro hfresh hnd hroom
    have hstep := LRUCache.set_fresh_roomy c now kv.1 kv.2
      (hfresh kv (List.mem_cons_self _ _))
      (by simp only [List.length_cons] at hroom; omega)
    have hfresh' : ∀ kv' ∈ rest,
        lookupBy Prod.fst (c.entries ++ [(kv.1, (⟨kv.2, now, 1⟩ : CacheEntry T))]) kv'.1
          = none := by
      intro kv' h'
      rw [lookupBy_append]
      rw [hfresh kv' (List.mem_cons_of_mem _ h')]
      have hne : kv.1 ≠ kv'.1 := by
        intro he
        have : kv.1 ∈ rest.map Prod.fst := he ▸ List.mem_map_of_mem _ h'
        exact (List.nodup_cons.mp hnd).1 this
      simp [lookupBy, hne, Option.orElse]
    have hrec := LRUCache.setSequence_fill now rest
      { c with
          entries := c.entries ++ [(kv.1, ⟨kv.2, now, 1⟩)]
          stats := { c.stats with size := c.stats.size + 1 } }
      hfresh' (List.nodup_cons.mp hnd).2
      (by
        show (c.entries ++ [(kv.1, (⟨kv.2, now, 1⟩ : CacheEntry T))]).length
            + rest.length ≤ c.config.maxSize
        simp only [List.length_append, List.length_cons, List.length_nil] at hroom ⊢
        omega)
    have hunfold : LRUCache.setSequence c now (kv :: rest) =
        LRUCache.setSequence (c.set now kv.1 kv.2) now rest := rfl
    rw [hunfold, hstep, hrec]
    have harith : c.stats.size + 1 + rest.length
        = c.stats.size + (rest.length + 1) := by omega
    simp only [List.map_cons, List.length_cons, List.append_assoc,
      List.cons_append, List.nil_append, harith]

/-- Scenario helper for C6: inserting `maxSize + 1` distinct fresh keys
into an empty cache with no intervening reads evicts exactly the
first-inserted key and counts one eviction. -/
theorem lruCache_overflow_scenario {m ttl now : Nat} {kvs : List (String × Nat)}
    (hm : 0 < m) (hlen : kvs.length = m + 1)
    (hnd : (kvs.map Prod.fst).Nodup) :
    (LRUCache.setSequence (LRUCache.empty ⟨m, ttl⟩) now kvs).entries.map Prod.fst
        = (kvs.map Prod.fst).tail ∧
    (LRUCache.setSequence (LRUCache.empty ⟨m, ttl⟩) now kvs).stats.evictions = 1 := by
  have hne : kvs ≠ [] := by
    intro h
    rw [h] at hlen
    simp at hlen
  obtain ⟨init, last, hsplit⟩ : ∃ init last, kvs = init ++ [last] :=
    ⟨kvs.dropLast, kvs.getLast hne, (List.dropLast_append_getLast hne).symm⟩
  subst hsplit
  have hinitlen : init.length = m := by
    simp only [List.length_append, List.length_cons, List.length_nil] at hlen
    omega
  have hndmap : (init.map Prod.fst ++ [last.1]).Nodup := by
    simpa using hnd
  have hndinit : (init.map Prod.fst).Nodup := (List.nodup_append.mp hndmap).1
  have hdisj : last.1 ∉ init.map Prod.fst := by
    intro hmem
    exact (List.nodup_append.mp hndmap).2.2 hmem (by simp)
  have hfill := LRUCache.setSequence_fill (T := Nat) now init (LRUCache.empty ⟨m, ttl⟩)
    (fun kv _ => rfl) hndinit (by simp [LRUCache.empty, hinitlen])
  have happ : LRUCache.setSequence (LRUCache.empty ⟨m, ttl⟩) now (init ++ [last])
      = LRUCache.set (LRUCache.setSequence (LRUCache.empty ⟨m, ttl⟩) now init)
          now last.1 last.2 := by
    unfold LRUCache.setSequence
    rw [List.foldl_append]
    rfl
  have hinitne : init ≠ [] := by
    intro h
    rw [h] at hinitlen
    simp at hinitlen
    omega
  obtain ⟨hd, tl, hcons⟩ := List.exists_cons_of_ne_nil hinitne
  have hentries :
      (LRUCache.setSequence (LRUCache.empty ⟨m, ttl⟩) now init).entries
        = init.map (fun kv => (kv.1, (⟨kv.2, now, 1⟩ : CacheEntry Nat))) := by
    rw [hfill]
    simp [LRUCache.empty]
  have hfresh1 : lookupBy Prod.fst
      (LRUCache.setSequence (LRUCache.empty ⟨m, ttl⟩) now init).entries last.1
        = none := by
    rw [hentries, lookupBy_eq_none]
    intro p hp hk
    rcases List.mem_map.mp hp with ⟨kv, hkv, rfl⟩
    exact hdisj (hk ▸ List.mem_map_of_mem _ hkv)
  have hfull1 : (LRUCache.setSequence (LRUCache.empty ⟨m, ttl⟩) now init).entries.length
      ≥ (LRUCache.setSequence (LRUCache.empty ⟨m, ttl⟩) now init).config.maxSize := by
    rw [hentries, hfill]
    simp [LRUCache.empty, hinitlen]
  have hnd1 : NodupKeys Prod.fst
      (LRUCache.setSequence (LRUCache.empty ⟨m, ttl⟩) now init).entries := by
    rw [hentries]
    unfold NodupKeys
    rw [List.map_map]
    simpa using hndinit
  have hshape1 : (LRUCache.setSequence (LRUCache.empty ⟨m, ttl⟩) now init).entries
      = (hd.1, (⟨hd.2, now, 1⟩ : CacheEntry Nat))
          :: tl.map (fun kv => (kv.1, (⟨kv.2, now, 1⟩ : CacheEntry Nat))) := by
    rw [hentries, hcons]
    rfl
  have hstep := LRUCache.set_fresh_evicts
    (LRUCache.setSequence (LRUCache.empty ⟨m, ttl⟩) now init) now last.1 last.2
    _ _ _ hfresh1 hfull1 hshape1 hnd1
  rw [happ, hstep]
  constructor
  · simp only [List.map_append, List.map_map, List.map_cons, hcons]
    simp [Function.comp]
  · have hev : (LRUCache.setSequence (LRUCache.empty ⟨m, ttl⟩) now init).stats.evictions
        = 0 := by
      rw [hfill]
      simp [LRUCache.empty]
    dsimp only
    rw [hev]

/-- C6: LRU eviction is by access order.  (1) At capacity, `set` of a
fresh key evicts the front map entry — which, by (2), is the
least-recently-accessed one, since every live `get` moves its entry to
the back — and counts one eviction.  (3) Inserting `maxSize + 1`
distinct keys into an empty cache with no intervening reads evicts
exactly the first-inserted key and leaves the eviction counter at 1. -/
theorem lruCache_lru_eviction :
    (∀ (c : LRUCache Nat) (now : Nat) (k : String) (v : Nat),
       lookupBy Prod.fst c.entries k = none →
       c.entries.length ≥ c.config.maxSize →
       NodupKeys Prod.fst c.entries →
       c.entries ≠ [] →
       (c.set now k v).entries.map Prod.fst
           = (c.entries.map Prod.fst).tail ++ [k] ∧
       (c.set now k v).stats.evictions = c.stats.evictions + 1) ∧
    (∀ (c : LRUCache Nat) (now : Nat) (k : String) (p : String × CacheEntry Nat),
       lookupBy Prod.fst c.entries k = some p →
       ¬(now - p.2.timestamp > c.config.ttlMs) →
       (c.get now k).2.entries.map Prod.fst
         = (deleteBy Prod.fst c.entries k).map Prod.fst ++ [k]) ∧
    (∀ (m ttl now : Nat) (kvs : List (String × Nat)),
       0 < m → kvs.length = m + 1 → (kvs.map Prod.fst).Nodup →
       (LRUCache.setSequence (LRUCache.empty ⟨m, ttl⟩) now kvs).entries.map Prod.fst
           = (kvs.map Prod.fst).tail ∧
       (LRUCache.setSequence (LRUCache.empty ⟨m, ttl⟩) now kvs).stats.evictions
           = 1) := by
  refine ⟨?_, ?_, ?_⟩
  · intro c now k v hfresh hfull hnd hne
    obtain ⟨⟨k0, e0⟩, rest, hshape⟩ := List.exists_cons_of_ne_nil hne
    rw [LRUCache.set_fresh_evicts c now k v k0 e0 rest hfresh hfull hshape hnd]
    constructor
    · simp [hshape]
    · rfl
  · intro c now k p hit live
    rw [LRUCache.get_hit c now k p hit live]
    dsimp only
    rw [setBy_fresh (by rw [lookupBy_deleteBy]; simp)]
    simp
  · intro m ttl now kvs hm hlen hnd
    exact lruCache_overflow_scenario hm hlen hnd

/-- Witness for C6: a one-slot cache holding "a" evicts it when the
fresh key "b" is set. -/
theorem lruCache_lru_eviction_witness :
    ((⟨[("a", ⟨0, 0, 1⟩)], ⟨0, 0, 0, 1, 1⟩, ⟨1, 50⟩⟩ : LRUCache Nat).set 2 "b" 7).entries.map
        Prod.fst
      = (((⟨[("a", ⟨0, 0, 1⟩)], ⟨0, 0, 0, 1, 1⟩, ⟨1, 50⟩⟩ : LRUCache Nat)).entries.map
            Prod.fst).tail ++ ["b"] ∧
    ((⟨[("a", ⟨0, 0, 1⟩)], ⟨0, 0, 0, 1, 1⟩, ⟨1, 50⟩⟩ : LRUCache Nat).set 2 "b" 7).stats.evictions
      = ((⟨[("a", ⟨0, 0, 1⟩)], ⟨0, 0, 0, 1, 1⟩, ⟨1, 50⟩⟩ : LRUCache Nat)).stats.evictions + 1 :=
  lruCache_lru_eviction.1 _ 2 "b" 7 (by decide) (by decide) (by decide) (by decide)

/-! ## C4 — ordering of remove operations inside a patch -/

/-- An element of the left part of an append, located by a predicate
that fails on the whole right part, has an index below the split. -/
theorem seg_lt_of_all_right {p : α → Bool} {l1 l2 : List α} {k : Nat} {a : α}
    (hget : (l1 ++ l2)[k]? = some a)
    (hall : ∀ b ∈ l2, p b = false)
    (hp : p a = true) : k < l1.length := by
  by_contra hk
  push_neg at hk
  rw [List.getElem?_append_right hk] at hget
  rw [hall _ (List.getElem?_mem hget)] at hp
  exact Bool.false_ne_true hp

/-- An element located by a predicate failing on the whole left part of
an append has an index at or past the split. -/
theorem seg_ge_of_all_left {p : α → Bool} {l1 l2 : List α} {k : Nat} {a : α}
    (hget : (l1 ++ l2)[k]? = some a)
    (hall : ∀ b ∈ l1, p b = false)
    (hp : p a = true) : l1.length ≤ k := by
  by_contra hk
  push_neg at hk
  rw [List.getElem?_append_left hk] at hget
  rw [hall _ (List.getElem?_mem hget)] at hp
  exact Bool.false_ne_true hp

/-- C4 (counterexample): `diff` emits node removals *before* edge
removals.  Diffing away node "a" together with its edge "e" produces
`[removeNode "a", removeEdge "e"]`, violating the claimed
edge-removals-first ordering. -/
theorem diff_remove_ordering_cex :
    ¬ edgeRemovalsPrecedeNodeRemovals
        ⟨[⟨"a", [], []⟩, ⟨"b", [], []⟩], [⟨"e", "a", "b", "t", []⟩]⟩
        (PatchEngine.diff
          ⟨[⟨"a", [], []⟩, ⟨"b", [], []⟩], [⟨"e", "a", "b", "t", []⟩]⟩
          ⟨[⟨"b", [], []⟩], []⟩) := by
  intro h
  have h01 := h 1 0 (by decide) (by decide) "a" "e" (by decide) (by decide)
    ⟨⟨"e", "a", "b", "t", []⟩, by decide, by decide, Or.inl (by decide)⟩
  exact absurd h01 (by decide)

/-- C4 (amended): in patches built by `createRemovePatch`, every
remove-edge operation precedes every remove-node operation; in patches
built by `diff`, it is the other way round — every remove-node
operation precedes every remove-edge operation (apply's cascade then
makes those edge removals report "not found", leaving the graph itself
unaffected). -/
theorem patch_remove_op_ordering :
    (∀ (nodeIds edgeIds : List String) (i j : Nat) (opi opj : PatchOperation),
       (PatchEngine.createRemovePatch nodeIds edgeIds)[i]? = some opi →
       (PatchEngine.createRemovePatch nodeIds edgeIds)[j]? = some opj →
       opi.isRemoveEdgeOp = true → opj.isRemoveNodeOp = true →
       i < j) ∧
    (∀ (before after : Graph) (i j : Nat) (opi opj : PatchOperation),
       (PatchEngine.diff before after)[i]? = some opi →
       (PatchEngine.diff before after)[j]? = some opj →
       opi.isRemoveNodeOp = true → opj.isRemoveEdgeOp = true →
       i < j) := by
  constructor
  · intro nodeIds edgeIds i j opi opj hgi hgj hie hjn
    unfold PatchEngine.createRemovePatch at hgi hgj
    have h1 : i < (edgeIds.map (fun e => PatchOperation.removeEdge e)).length := by
      refine seg_lt_of_all_right hgi ?_ hie
      intro a ha
      rcases List.mem_map.mp ha with ⟨x, _, rfl⟩
      rfl
    have h2 : (edgeIds.map (fun e => PatchOperation.removeEdge e)).length ≤ j := by
      refine seg_ge_of_all_left hgj ?_ hjn
      intro a ha
      rcases List.mem_map.mp ha with ⟨x, _, rfl⟩
      rfl
    omega
  · intro before after i j opi opj hgi hgj hin hje
    unfold PatchEngine.diff at hgi hgj
    simp only [List.append_assoc] at hgi hgj
    have hrest : ∀ op ∈
        (before.edges.filter
            (fun e => ¬(lookupBy GraphEdge.id after.edges e.id).isSome)).map
          (fun e => PatchOperation.removeEdge e.id)
        ++ ((after.nodes.filter
            (fun n => ¬(lookupBy GraphNode.id before.nodes n.id).isSome)).map
          (fun n => PatchOperation.addNode n)
        ++ ((after.edges.filter
            (fun e => ¬(lookupBy GraphEdge.id before.edges e.id).isSome)).map
          (fun e => PatchOperation.addEdge e)
        ++ ((before.nodes.filterMap (fun bn =>
              match lookupBy GraphNode.id after.nodes bn.id with
              | some an =>
                let d := PatchEngine.diffProperties bn.properties an.properties
                if d.isEmpty then none
                else some (PatchOperation.updateNode bn.id d)
              | none => none))
        ++ (before.edges.filterMap (fun be =>
              match lookupBy GraphEdge.id after.edges be.id with
              | some ae =>
                let d := PatchEngine.diffProperties be.properties ae.properties
                if d.isEmpty then none
                else some (PatchOperation.updateEdge be.id d)
              | none => none))))),
        op.isRemoveNodeOp = false := by
      intro op hop
      rcases List.mem_append.mp hop with h1 | hop
      · rcases List.mem_map.mp h1 with ⟨x, _, rfl⟩
        rfl
      rcases List.mem_append.mp hop with h1 | hop
      · rcases List.mem_map.mp h1 with ⟨x, _, rfl⟩
        rfl
      rcases List.mem_append.mp hop with h1 | hop
      · rcases List.mem_map.mp h1 with ⟨x, _, rfl⟩
        rfl
      rcases List.mem_append.mp hop with h1 | h1
      · rcases List.mem_filterMap.mp h1 with ⟨bn, _, hf⟩
        rcases hlk : lookupBy GraphNode.id after.nodes bn.id with _ | an
        · rw [hlk] at hf
          simp at hf
        · rw [hlk] at hf
          simp only at hf
          split at hf
          · simp at hf
          · simp only [Option.some.injEq] at hf
            rw [← hf]
            rfl
      · rcases List.mem_filterMap.mp h1 with ⟨be, _, hf⟩
        rcases hlk : lookupBy GraphEdge.id after.edges be.id with _ | ae
        · rw [hlk] at hf
          simp at hf
        · rw [hlk] at hf
          simp only at hf
          split at hf
          · simp at hf
          · simp only [Option.some.injEq] at hf
            rw [← hf]
            rfl
    have h1 : i < ((before.nodes.filter
        (fun n => ¬(lookupBy GraphNode.id after.nodes n.id).isSome)).map
          (fun n => PatchOperation.removeNode n.id)).length :=
      seg_lt_of_all_right hgi hrest hin
    have h2 : ((before.nodes.filter
        (fun n => ¬(lookupBy GraphNode.id after.nodes n.id).isSome)).map
          (fun n => PatchOperation.removeNode n.id)).length ≤ j := by
      refine seg_ge_of_all_left hgj ?_ hje
      intro a ha
      rcases List.mem_map.mp ha with ⟨x, _, rfl⟩
      rfl
    omega

/-- Witness for C4's amended ordering at concrete patches. -/
theorem patch_remove_op_ordering_witness : (0 : Nat) < 1 :=
  patch_remove_op_ordering.1 ["n"] ["e"] 0 1
    (PatchOperation.removeEdge "e") (PatchOperation.removeNode "n")
    (by decide) (by decide) (by decide) (by decide)

/-! ## C3 — removing a node removes its edges -/

/-- C3 (counterexample): the `GraphPatch`-layer `applyPatch` does not
cascade: applying a remove-node patch for the present node "a" leaves
the edge "e" (whose source is "a") in the resulting snapshot. -/
theorem applyPatch_removeNode_no_cascade_cex :
    applyPatch ⟨[⟨"a", [], []⟩, ⟨"b", [], []⟩], [⟨"e", "a", "b", "t", []⟩]⟩
        ⟨[⟨PatchOperationType.remove, ⟨"a", [], []⟩, none⟩], []⟩
      = ⟨[⟨"b", [], []⟩], [⟨"e", "a", "b", "t", []⟩]⟩ := by
  decide

/-- Remove-only operations never grow the edge map. -/
theorem applyOps_removeOnly_edges_subset :
    ∀ (ops : List PatchOperation) (st : PatchEngine.ApplyState) (i : Nat),
      (∀ op ∈ ops, op.isRemoveNodeOp = true ∨ op.isRemoveEdgeOp = true) →
      ∀ e ∈ (PatchEngine.applyOps ops st i).edges, e ∈ st.edges
  | [], st, i => by
    intro _ e he
    exact he
  | op :: rest, st, i => by
    intro hro e he
    have hstep : ∀ e' ∈ (PatchEngine.applyOp st i op).edges, e' ∈ st.edges := by
      intro e' he'
      have hro1 := hro op (List.mem_cons_self _ _)
      cases op with
      | addNode n =>
        simp [PatchOperation.isRemoveNodeOp, PatchOperation.isRemoveEdgeOp] at hro1
      | addEdge a =>
        simp [PatchOperation.isRemoveNodeOp, PatchOperation.isRemoveEdgeOp] at hro1
      | updateNode a b =>
        simp [PatchOperation.isRemoveNodeOp, PatchOperation.isRemoveEdgeOp] at hro1
      | updateEdge a b =>
        simp [PatchOperation.isRemoveNodeOp, PatchOperation.isRemoveEdgeOp] at hro1
      | removeNode x =>
        simp only [PatchEngine.applyOp] at he'
        split at he'
        · exact List.mem_of_mem_filter he'
        · exact he'
      | removeEdge x =>
        simp only [PatchEngine.applyOp] at he'
        split at he'
        · exact List.mem_of_mem_filter he'
        · exact he'
    have hrec := applyOps_removeOnly_edges_subset rest (PatchEngine.applyOp st i op)
      (i + 1) (fun o ho => hro o (List.mem_cons_of_mem _ ho))
    exact hstep e (hrec e he)

/-- After a remove-only operation other than `removeNode x`, the node
`x` is still present. -/
theorem applyOp_preserves_other_node {st : PatchEngine.ApplyState} {i : Nat}
    {op : PatchOperation} {x : String}
    (hro : op.isRemoveNodeOp = true ∨ op.isRemoveEdgeOp = true)
    (hne : op ≠ PatchOperation.removeNode x)
    (hx : (lookupBy GraphNode.id st.nodes x).isSome) :
    (lookupBy GraphNode.id (PatchEngine.applyOp st i op).nodes x).isSome := by
  cases op with
  | removeNode y =>
    have hxy : x ≠ y := by
      intro h
      exact hne (by rw [h])
    simp only [PatchEngine.applyOp]
    split
    · dsimp only
      rw [lookupBy_deleteBy, if_neg hxy]
      exact hx
    · exact hx
  | removeEdge y =>
    simp only [PatchEngine.applyOp]
    split <;> exact hx
  | addNode n => simp [PatchOperation.isRemoveNodeOp, PatchOperation.isRemoveEdgeOp] at hro
  | addEdge e => simp [PatchOperation.isRemoveNodeOp, PatchOperation.isRemoveEdgeOp] at hro
  | updateNode y p => simp [PatchOperation.isRemoveNodeOp, PatchOperation.isRemoveEdgeOp] at hro
  | updateEdge y p => simp [PatchOperation.isRemoveNodeOp, PatchOperation.isRemoveEdgeOp] at hro

/-- Running a remove-only operation list that removes the (present)
node `x` leaves no edge referencing `x`. -/
theorem applyOps_removeNode_clears_edges :
    ∀ (ops : List PatchOperation) (st : PatchEngine.ApplyState) (i : Nat) (x : String),
      (∀ op ∈ ops, op.isRemoveNodeOp = true ∨ op.isRemoveEdgeOp = true) →
      PatchOperation.removeNode x ∈ ops →
      (lookupBy GraphNode.id st.nodes x).isSome →
      ∀ e ∈ (PatchEngine.applyOps ops st i).edges, ¬(e.source = x ∨ e.target = x)
  | [], st, i, x => by
    intro _ hmem
    simp at hmem
  | op :: rest, st, i, x => by
    intro hro hmem hx e he
    by_cases hop : op = PatchOperation.removeNode x
    · subst hop
      have hst1 : (PatchEngine.applyOp st i (PatchOperation.removeNode x)).edges
          = st.edges.filter (fun e => ¬(e.source = x ∨ e.target = x)) := by
        simp only [PatchEngine.applyOp]
        rw [if_pos hx]
      have hsub := applyOps_removeOnly_edges_subset rest
        (PatchEngine.applyOp st i (PatchOperation.removeNode x)) (i + 1)
        (fun o ho => hro o (List.mem_cons_of_mem _ ho))
      have he1 := hsub e he
      rw [hst1] at he1
      have := (List.mem_filter.mp he1).2
      simpa using this
    · have hmem' : PatchOperation.removeNode x ∈ rest := by
        rcases List.mem_cons.mp hmem with h | h
        · exact absurd h.symm hop
        · exact h
      exact applyOps_removeNode_clears_edges rest (PatchEngine.applyOp st i op)
        (i + 1) x (fun o ho => hro o (List.mem_cons_of_mem _ ho)) hmem'
        (applyOp_preserves_other_node (hro op (List.mem_cons_self _ _)) hop hx)
        e he

/-- C3 (amended): every remove path that cascades.  (1) A
`PatchEngine.apply` remove-node operation on a present node leaves no
edge referencing it; (2) `GraphSession.removeNodes` leaves no edge
referencing any removed id; (3) `SessionManager.removeData` leaves no
edge referencing any removed, present node id.  (The `GraphPatch`-layer
`applyPatch` alone does not cascade — see the counterexample.) -/
theorem remove_node_removes_referencing_edges :
    (∀ (st : PatchEngine.ApplyState) (i : Nat) (x : String),
       (lookupBy GraphNode.id st.nodes x).isSome →
       ∀ e ∈ (PatchEngine.applyOp st i (PatchOperation.removeNode x)).edges,
         ¬(e.source = x ∨ e.target = x)) ∧
    (∀ (s : GraphSession) (nodeIds : List String) (x : String), x ∈ nodeIds →
       ∀ e ∈ (GraphSession.removeNodes s nodeIds).1.state.edges,
         ¬(e.source = x ∨ e.target = x)) ∧
    (∀ (sm : SessionManager) (now : Nat) (nodeIds edgeIds : List String) (x : String),
       x ∈ nodeIds →
       (lookupBy GraphNode.id sm.graph.nodes x).isSome →
       ∀ e ∈ (SessionManager.removeData sm now nodeIds edgeIds).1.graph.edges,
         ¬(e.source = x ∨ e.target = x)) := by
  refine ⟨?_, ?_, ?_⟩
  · intro st i x hx e he
    simp only [PatchEngine.applyOp] at he
    rw [if_pos hx] at he
    have := (List.mem_filter.mp he).2
    simpa using this
  · intro s nodeIds x hx e he
    unfold GraphSession.removeNodes at he
    dsimp only at he
    have := (List.mem_filter.mp he).2
    simp only [Bool.and_eq_true, Bool.not_eq_true'] at this
    rintro (hs | ht)
    · have hc := this.1
      rw [hs] at hc
      simp at hc
      exact hc hx
    · have hc := this.2
      rw [ht] at hc
      simp at hc
      exact hc hx
  · intro sm now nodeIds edgeIds x hx hpres e he
    refine applyOps_removeNode_clears_edges
      (PatchEngine.createRemovePatch nodeIds edgeIds)
      ⟨sm.graph.nodes, sm.graph.edges, 0, []⟩ 0 x ?_ ?_ hpres e he
    · intro op hop
      unfold PatchEngine.createRemovePatch at hop
      rcases List.mem_append.mp hop with h | h
      · rcases List.mem_map.mp h with ⟨y, _, rfl⟩
        right
        rfl
      · rcases List.mem_map.mp h with ⟨y, _, rfl⟩
        left
        rfl
    · unfold PatchEngine.createRemovePatch
      exact List.mem_append.mpr (Or.inr (List.mem_map_of_mem _ hx))

/-- Witness for C3: removing present node "a" from a concrete state, the
surviving edge "e2" (c→b) references no removed node. -/
theorem remove_node_removes_referencing_edges_witness :
    ¬((⟨"e2", "c", "b", "t", []⟩ : GraphEdge).source = "a" ∨
      (⟨"e2", "c", "b", "t", []⟩ : GraphEdge).target = "a") :=
  remove_node_removes_referencing_edges.1
    ⟨[⟨"a", [], []⟩, ⟨"b", [], []⟩, ⟨"c", [], []⟩],
     [⟨"e1", "a", "b", "t", []⟩, ⟨"e2", "c", "b", "t", []⟩], 0, []⟩ 0 "a"
    (by decide) ⟨"e2", "c", "b", "t", []⟩ (by decide)

/-! ## C7 — merge groups by id and consolidates first/last -/

/-- Membership in `firstKeys` is membership. -/
theorem firstKeys_mem : ∀ (ks : List String) (j : String),
    j ∈ firstKeys ks ↔ j ∈ ks
  | [], j => by simp [firstKeys]
  | a :: rest, j => by
    by_cases h : j = a
    · subst h
      simp [firstKeys]
    · have ih := firstKeys_mem (rest.filter (fun x => x ≠ a)) j
      simp only [firstKeys, List.mem_cons, h, false_or]
      rw [ih]
      simp [List.mem_filter, h]
  termination_by ks => ks.length
  decreasing_by
    simp only [List.length_cons]
    exact Nat.lt_succ_of_le (List.length_filter_le _ _)

/-- Appending one key: kept as-is if already present, appended if new. -/
theorem firstKeys_append_single (k : String) : ∀ (l : List String),
    firstKeys (l ++ [k]) = if k ∈ l then firstKeys l else firstKeys l ++ [k]
  | [] => by simp [firstKeys]
  | a :: rest => by
    by_cases hka : k = a
    · subst hka
      have hfil : (rest ++ [k]).filter (fun x => x ≠ k)
          = rest.filter (fun x => x ≠ k) := by
        rw [List.filter_append]
        simp
      rw [List.cons_append, if_pos (List.mem_cons_self k rest)]
      simp only [firstKeys, hfil]
    · have hfil : (rest ++ [k]).filter (fun x => x ≠ a)
          = rest.filter (fun x => x ≠ a) ++ [k] := by
        rw [List.filter_append]
        simp [hka]
      have ih := firstKeys_append_single k (rest.filter (fun x => x ≠ a))
      simp only [List.cons_append, firstKeys, hfil, ih]
      have hmemiff : (k ∈ rest.filter (fun x => x ≠ a)) ↔ k ∈ a :: rest := by
        simp [List.mem_filter, hka]
      by_cases hk : k ∈ a :: rest
      · rw [if_pos (hmemiff.mpr hk), if_pos hk]
      · rw [if_neg (fun hm => hk (hmemiff.mp hm)), if_neg hk]
  termination_by l => l.length
  decreasing_by
    simp only [List.length_cons]
    exact Nat.lt_succ_of_le (List.length_filter_le _ _)

/-- Lookup in a list of pairs built by pairing each key with a value. -/
theorem lookupBy_pairing {β : Type u} (f : String → β) (is : List String)
    (j : String) :
    lookupBy Prod.fst (is.map (fun i => (i, f i))) j
      = if j ∈ is then some (j, f j) else none := by
  induction is with
  | nil => simp [lookupBy]
  | cons a is ih =>
    simp only [List.map_cons, lookupBy]
    by_cases h : a = j
    · subst h
      simp
    · rw [if_neg h, ih]
      by_cases hj : j ∈ is
      · rw [if_pos hj, if_pos (List.mem_cons_of_mem _ hj)]
      · rw [if_neg hj, if_neg (fun hm => by
          rcases List.mem_cons.mp hm with rfl | hh
          · exact h rfl
          · exact hj hh)]

/-- One `byId.set` step turns the grouping of `xs` into the grouping of
`xs ++ [p]`. -/
theorem pushById_groupsById (key : α → String) (xs : List α) (p : α) :
    pushById key (groupsById key xs) p = groupsById key (xs ++ [p]) := by
  have hks : (xs ++ [p]).map key = xs.map key ++ [key p] := by
    rw [List.map_append]
    rfl
  by_cases hp : key p ∈ xs.map key
  · have hlk : lookupBy Prod.fst (groupsById key xs) (key p)
        = some (key p, xs.filter (fun a => key a = key p)) := by
      unfold groupsById
      rw [lookupBy_pairing (fun i => xs.filter (fun a => key a = i))]
      rw [if_pos ((firstKeys_mem _ _).mpr hp)]
    unfold pushById
    rw [hlk]
    simp only [Option.isSome_some, if_pos]
    unfold groupsById
    rw [hks, firstKeys_append_single, if_pos hp, List.map_map]
    refine List.map_congr_left ?_
    intro i hi
    simp only [Function.comp]
    rw [List.filter_append]
    by_cases hip : i = key p
    · subst hip
      simp
    · have hpi : ¬key p = i := fun h => hip h.symm
      have h1 : [p].filter (fun a => key a = i) = [] := by
        simp [hpi]
      simp [hip, hpi, h1]
  · have hlk : lookupBy Prod.fst (groupsById key xs) (key p) = none := by
      unfold groupsById
      rw [lookupBy_pairing (fun i => xs.filter (fun a => key a = i))]
      rw [if_neg (fun hm => hp ((firstKeys_mem _ _).mp hm))]
    unfold pushById
    rw [hlk]
    simp only [Option.isSome_none, Bool.false_eq_true, if_false]
    unfold groupsById
    rw [hks, firstKeys_append_single, if_neg hp, List.map_append]
    congr 1
    · refine List.map_congr_left ?_
      intro i hi
      have hip : key p ≠ i := by
        intro h
        exact hp (h ▸ (firstKeys_mem _ _).mp hi)
      rw [List.filter_append]
      have h1 : [p].filter (fun a => key a = i) = [] := by
        simp [hip]
      simp [h1]
    · simp only [List.map_cons, List.map_nil]
      have h0 : xs.filter (fun a => key a = key p) = [] := by
        rw [List.filter_eq_nil]
        intro a ha h
        simp only [decide_eq_true_eq] at h
        exact hp (h ▸ List.mem_map_of_mem key ha)
      rw [List.filter_append, h0]
      simp

/-- Folding the `byId` accumulation over `ps` produces exactly the
first-appearance-ordered grouping of `ps`. -/
theorem foldl_pushById (key : α → String) : ∀ (ps xs : List α),
    ps.foldl (pushById key) (groupsById key xs) = groupsById key (xs ++ ps)
  | [], xs => by simp
  | p :: ps, xs => by
    rw [List.foldl_cons, pushById_groupsById, foldl_pushById key ps (xs ++ [p]),
      List.append_assoc]
    rfl

/-- Grouping from the empty accumulator. -/
theorem foldl_pushById_nil (key : α → String) (ps : List α) :
    ps.foldl (pushById key) [] = groupsById key ps := by
  have h0 : groupsById key ([] : List α) = [] := by
    simp [groupsById, firstKeys]
  rw [← h0, foldl_pushById]
  rfl

/-- C7: `mergePatches` concatenates all operations across the patches,
groups them by entity id — one group per id in first-appearance order,
each group the ordered subsequence of operations with that id — and
consolidates each group: a singleton group is kept as-is; otherwise only
the first and last operations are compared — add-then-remove drops the
group, remove-then-add becomes a single update carrying the last
payload, and every other combination keeps only the last operation. -/
theorem mergePatches_groups_and_consolidates (patches : List GraphPatch) :
    ((mergePatches patches).nodePatch
        = (firstKeys ((patches.flatMap GraphPatch.nodePatch).map
              (fun np => np.node.id))).filterMap
            (fun i => consolidateNodeGroup
              ((patches.flatMap GraphPatch.nodePatch).filter
                (fun np => np.node.id = i))) ∧
     (mergePatches patches).edgePatch
        = (firstKeys ((patches.flatMap GraphPatch.edgePatch).map
              (fun ep => ep.edge.id))).filterMap
            (fun i => consolidateEdgeGroup
              ((patches.flatMap GraphPatch.edgePatch).filter
                (fun ep => ep.edge.id = i)))) ∧
    (∀ p : NodePatch, consolidateNodeGroup [p] = some p) ∧
    (∀ (q r : NodePatch) (mid : List NodePatch),
       consolidateNodeGroup (q :: mid ++ [r])
         = if q.operation = PatchOperationType.add ∧
               r.operation = PatchOperationType.remove then none
           else if q.operation = PatchOperationType.remove ∧
               r.operation = PatchOperationType.add then
             some ⟨PatchOperationType.update, r.node, none⟩
           else some r) ∧
    (∀ p : EdgePatch, consolidateEdgeGroup [p] = some p) ∧
    (∀ (q r : EdgePatch) (mid : List EdgePatch),
       consolidateEdgeGroup (q :: mid ++ [r])
         = if q.operation = PatchOperationType.add ∧
               r.operation = PatchOperationType.remove then none
           else if q.operation = PatchOperationType.remove ∧
               r.operation = PatchOperationType.add then
             some ⟨PatchOperationType.update, r.edge, none⟩
           else some r) := by
  refine ⟨⟨?_, ?_⟩, ?_, ?_, ?_, ?_⟩
  · unfold mergePatches consolidateNodePatches
    rw [foldl_pushById_nil]
    unfold groupsById
    rw [List.filterMap_map]
    rfl
  · unfold mergePatches consolidateEdgePatches
    rw [foldl_pushById_nil]
    unfold groupsById
    rw [List.filterMap_map]
    rfl
  · intro p
    rfl
  · intro q r mid
    obtain ⟨h, t, hht⟩ :=
      List.exists_cons_of_ne_nil (show mid ++ [r] ≠ [] by simp)
    have h1 : (q :: mid ++ [r]).getLast? = some r := by
      rw [show q :: mid ++ [r] = (q :: mid) ++ [r] from rfl]
      exact List.getLast?_concat _
    rw [List.cons_append, hht] at h1 ⊢
    have hlast : (q :: h :: t).getLast (by simp) = r := by
      have h2 := List.getLast?_eq_getLast (q :: h :: t) (by simp)
      rw [h1] at h2
      exact (Option.some_inj.mp h2).symm
    simp only [consolidateNodeGroup]
    rw [hlast]
  · intro p
    rfl
  · intro q r mid
    obtain ⟨h, t, hht⟩ :=
      List.exists_cons_of_ne_nil (show mid ++ [r] ≠ [] by simp)
    have h1 : (q :: mid ++ [r]).getLast? = some r := by
      rw [show q :: mid ++ [r] = (q :: mid) ++ [r] from rfl]
      exact List.getLast?_concat _
    rw [List.cons_append, hht] at h1 ⊢
    have hlast : (q :: h :: t).getLast (by simp) = r := by
      have h2 := List.getLast?_eq_getLast (q :: h :: t) (by simp)
      rw [h1] at h2
      exact (Option.some_inj.mp h2).symm
    simp only [consolidateEdgeGroup]
    rw [hlast]

/-! ## C2 — apply/invert round trip (`GraphPatch` layer) -/

/-- A node patch op does not change the lookup at other ids. -/
theorem applyNodePatchOp_lookup_other {ns : List GraphNode} {np : NodePatch}
    {j : String} (h : np.node.id ≠ j) :
    lookupBy GraphNode.id (applyNodePatchOp ns np) j
      = lookupBy GraphNode.id ns j := by
  unfold applyNodePatchOp
  rcases np with ⟨op, node, prev⟩
  cases op <;> dsimp only
  · rw [lookupBy_setBy]
    exact if_neg (fun hj => h hj.symm)
  · rw [lookupBy_deleteBy]
    exact if_neg (fun hj => h hj.symm)
  · rw [lookupBy_setBy]
    exact if_neg (fun hj => h hj.symm)

/-- A node patch op installs its own effect at its own id. -/
theorem applyNodePatchOp_lookup_self (ns : List GraphNode) (np : NodePatch) :
    lookupBy GraphNode.id (applyNodePatchOp ns np) np.node.id
      = nodePatchEffect np := by
  unfold applyNodePatchOp nodePatchEffect
  rcases np with ⟨op, node, prev⟩
  cases op <;> dsimp only
  · rw [lookupBy_setBy]
    exact if_pos rfl
  · rw [lookupBy_deleteBy]
    exact if_pos rfl
  · rw [lookupBy_setBy]
    exact if_pos rfl

/-- Folding node patch ops that never target `j` preserves the lookup. -/
theorem applyNodePatches_untouched : ∀ (nps : List NodePatch)
    (ns : List GraphNode) (j : String),
    (∀ np ∈ nps, np.node.id ≠ j) →
    lookupBy GraphNode.id (nps.foldl applyNodePatchOp ns) j
      = lookupBy GraphNode.id ns j
  | [], ns, j => by
    intro _
    rfl
  | np :: rest, ns, j => by
    intro hno
    rw [List.foldl_cons,
      applyNodePatches_untouched rest _ j
        (fun q hq => hno q (List.mem_cons_of_mem _ hq)),
      applyNodePatchOp_lookup_other (hno np (List.mem_cons_self _ _))]

/-- When exactly one op in the fold targets `j`, the final lookup at `j`
is that op's effect. -/
theorem applyNodePatches_single : ∀ (nps : List NodePatch)
    (ns : List GraphNode) (j : String) (np0 : NodePatch),
    nps.filter (fun np => np.node.id = j) = [np0] →
    lookupBy GraphNode.id (nps.foldl applyNodePatchOp ns) j
      = nodePatchEffect np0
  | [], ns, j, np0 => by
    intro h
    simp at h
  | np :: rest, ns, j, np0 => by
    intro hf
    rw [List.filter_cons] at hf
    by_cases hj : np.node.id = j
    · rw [if_pos (by simpa using hj)] at hf
      have hnp : np = np0 := (List.cons.injEq _ _ _ _).mp hf |>.1
      have hrest : rest.filter (fun np => np.node.id = j) = [] :=
        (List.cons.injEq _ _ _ _).mp hf |>.2
      have hnone : ∀ q ∈ rest, q.node.id ≠ j := by
        intro q hq
        have := List.filter_eq_nil.mp hrest q hq
        simpa using this
      rw [List.foldl_cons, applyNodePatches_untouched rest _ j hnone, ← hj,
        applyNodePatchOp_lookup_self, hnp]
    · rw [if_neg (by simpa using hj)] at hf
      rw [List.foldl_cons, applyNodePatches_single rest _ j np0 hf]

/-- An edge patch op does not change the lookup at other ids. -/
theorem applyEdgePatchOp_lookup_other {es : List GraphEdge} {ep : EdgePatch}
    {j : String} (h : ep.edge.id ≠ j) :
    lookupBy GraphEdge.id (applyEdgePatchOp es ep) j
      = lookupBy GraphEdge.id es j := by
  unfold applyEdgePatchOp
  rcases ep with ⟨op, edge, prev⟩
  cases op <;> dsimp only
  · rw [lookupBy_setBy]
    exact if_neg (fun hj => h hj.symm)
  · rw [lookupBy_deleteBy]
    exact if_neg (fun hj => h hj.symm)
  · rw [lookupBy_setBy]
    exact if_neg (fun hj => h hj.symm)

/-- An edge patch op installs its own effect at its own id. -/
theorem applyEdgePatchOp_lookup_self (es : List GraphEdge) (ep : EdgePatch) :
    lookupBy GraphEdge.id (applyEdgePatchOp es ep) ep.edge.id
      = edgePatchEffect ep := by
  unfold applyEdgePatchOp edgePatchEffect
  rcases ep with ⟨op, edge, prev⟩
  cases op <;> dsimp only
  · rw [lookupBy_setBy]
    exact if_pos rfl
  · rw [lookupBy_deleteBy]
    exact if_pos rfl
  · rw [lookupBy_setBy]
    exact if_pos rfl

/-- Folding edge patch ops that never target `j` preserves the lookup. -/
theorem applyEdgePatches_untouched : ∀ (eps : List EdgePatch)
    (es : List GraphEdge) (j : String),
    (∀ ep ∈ eps, ep.edge.id ≠ j) →
    lookupBy GraphEdge.id (eps.foldl applyEdgePatchOp es) j
      = lookupBy GraphEdge.id es j
  | [], es, j => by
    intro _
    rfl
  | ep :: rest, es, j => by
    intro hno
    rw [List.foldl_cons,
      applyEdgePatches_untouched rest _ j
        (fun q hq => hno q (List.mem_cons_of_mem _ hq)),
      applyEdgePatchOp_lookup_other (hno ep (List.mem_cons_self _ _))]

/-- When exactly one edge op in the fold targets `j`, the final lookup
at `j` is that op's effect. -/
theorem applyEdgePatches_single : ∀ (eps : List EdgePatch)
    (es : List GraphEdge) (j : String) (ep0 : EdgePatch),
    eps.filter (fun ep => ep.edge.id = j) = [ep0] →
    lookupBy GraphEdge.id (eps.foldl applyEdgePatchOp es) j
      = edgePatchEffect ep0
  | [], es, j, ep0 => by
    intro h
    simp at h
  | ep :: rest, es, j, ep0 => by
    intro hf
    rw [List.filter_cons] at hf
    by_cases hj : ep.edge.id = j
    · rw [if_pos (by simpa using hj)] at hf
      have hnp : ep = ep0 := (List.cons.injEq _ _ _ _).mp hf |>.1
      have hrest : rest.filter (fun ep => ep.edge.id = j) = [] :=
        (List.cons.injEq _ _ _ _).mp hf |>.2
      have hnone : ∀ q ∈ rest, q.edge.id ≠ j := by
        intro q hq
        have := List.filter_eq_nil.mp hrest q hq
        simpa using this
      rw [List.foldl_cons, applyEdgePatches_untouched rest _ j hnone, ← hj,
        applyEdgePatchOp_lookup_self, hnp]
    · rw [if_neg (by simpa using hj)] at hf
      rw [List.foldl_cons, applyEdgePatches_single rest _ j ep0 hf]

/-- Unique keys bound the per-key filter to at most one element. -/
theorem filter_key_len_le_one {key : α → String} {l : List α}
    (h : (l.map key).Nodup) (j : String) :
    (l.filter (fun a => key a = j)).length ≤ 1 := by
  induction l with
  | nil => simp
  | cons a l ih =>
    rw [List.map_cons, List.nodup_cons] at h
    rw [List.filter_cons]
    by_cases hj : key a = j
    · rw [if_pos (by simpa using hj)]
      have hnil : l.filter (fun a => key a = j) = [] := by
        rw [List.filter_eq_nil]
        intro b hb hkb
        simp only [decide_eq_true_eq] at hkb
        exact h.1 (by
          rw [hj, ← hkb]
          exact List.mem_map_of_mem key hb)
      simp [hnil]
    · rw [if_neg (by simpa using hj)]
      exact ih h.2

/-- The id targeted by an inverted node operation equals the original
target id, given the op is faithful to some snapshot. -/
theorem invert_node_id_eq {S : Graph} {np : NodePatch}
    (hf : nodePatchFaithful S np = true) :
    ((fun (np : NodePatch) => match np.operation with
      | PatchOperationType.add =>
        (⟨PatchOperationType.remove, np.node, none⟩ : NodePatch)
      | PatchOperationType.remove => ⟨PatchOperationType.add, np.node, none⟩
      | PatchOperationType.update =>
        ⟨PatchOperationType.update, np.previousNode.getD default,
         some np.node⟩) np).node.id = np.node.id := by
  dsimp only
  rcases hop : np.operation with _ | _ | _
  · rfl
  · rfl
  rcases hprev : np.previousNode with _ | p
  · unfold nodePatchFaithful at hf
    rw [hop, hprev] at hf
    simp at hf
  · unfold nodePatchFaithful at hf
    rw [hop, hprev] at hf
    simp only [Bool.and_eq_true, beq_iff_eq] at hf
    simp only [hprev, Option.getD_some]
    exact hf.1

/-- The id targeted by an inverted edge operation equals the original
target id, given the op is faithful to some snapshot. -/
theorem invert_edge_id_eq {S : Graph} {ep : EdgePatch}
    (hf : edgePatchFaithful S ep = true) :
    ((fun (ep : EdgePatch) => match ep.operation with
      | PatchOperationType.add =>
        (⟨PatchOperationType.remove, ep.edge, none⟩ : EdgePatch)
      | PatchOperationType.remove => ⟨PatchOperationType.add, ep.edge, none⟩
      | PatchOperationType.update =>
        ⟨PatchOperationType.update, ep.previousEdge.getD default,
         some ep.edge⟩) ep).edge.id = ep.edge.id := by
  dsimp only
  rcases hop : ep.operation with _ | _ | _
  · rfl
  · rfl
  rcases hprev : ep.previousEdge with _ | p
  · unfold edgePatchFaithful at hf
    rw [hop, hprev] at hf
    simp at hf
  · unfold edgePatchFaithful at hf
    rw [hop, hprev] at hf
    simp only [Bool.and_eq_true, beq_iff_eq] at hf
    simp only [hprev, Option.getD_some]
    exact hf.1

/-- Filtering a key-preserving map commutes with filtering first. -/
theorem filter_map_keyfix {f : α → α} {p : α → Bool} : ∀ {l : List α},
    (∀ a ∈ l, p (f a) = p a) →
    (l.map f).filter p = (l.filter p).map f
  | [], _ => rfl
  | a :: l, hf => by
    rw [List.map_cons, List.filter_cons, List.filter_cons,
      hf a (List.mem_cons_self _ _)]
    by_cases hp : p a
    · rw [if_pos hp, if_pos hp, List.map_cons,
        filter_map_keyfix (fun b hb => hf b (List.mem_cons_of_mem _ hb))]
    · rw [if_neg hp, if_neg hp,
        filter_map_keyfix (fun b hb => hf b (List.mem_cons_of_mem _ hb))]

/-- Node side of the undo round trip, per id. -/
theorem roundTrip_nodes (S : Graph) (P : GraphPatch)
    (hn1 : (P.nodePatch.map (fun np => np.node.id)).Nodup)
    (hn2 : ∀ np ∈ P.nodePatch, nodePatchFaithful S np = true) (j : String) :
    lookupBy GraphNode.id ((invertPatch P).nodePatch.foldl applyNodePatchOp
        (P.nodePatch.foldl applyNodePatchOp S.nodes)) j
      = lookupBy GraphNode.id S.nodes j := by
  have hinv : (invertPatch P).nodePatch
      = P.nodePatch.map (fun (np : NodePatch) =>
          match np.operation with
          | PatchOperationType.add =>
            (⟨PatchOperationType.remove, np.node, none⟩ : NodePatch)
          | PatchOperationType.remove => ⟨PatchOperationType.add, np.node, none⟩
          | PatchOperationType.update =>
            ⟨PatchOperationType.update, np.previousNode.getD default,
             some np.node⟩) := rfl
  rcases hfil : P.nodePatch.filter (fun np => np.node.id = j) with _ | ⟨np0, rest⟩
  · have hno : ∀ np ∈ P.nodePatch, np.node.id ≠ j := by
      intro np hnp hk
      have hm : np ∈ P.nodePatch.filter (fun np => np.node.id = j) :=
        List.mem_filter.mpr ⟨hnp, by simpa using hk⟩
      rw [hfil] at hm
      simp at hm
    have hnoinv : ∀ q ∈ (invertPatch P).nodePatch, q.node.id ≠ j := by
      intro q hq
      rw [hinv] at hq
      rcases List.mem_map.mp hq with ⟨np, hnp, rfl⟩
      rw [invert_node_id_eq (hn2 np hnp)]
      exact hno np hnp
    rw [applyNodePatches_untouched _ _ _ hnoinv,
      applyNodePatches_untouched _ _ _ hno]
  · have hlen : (P.nodePatch.filter (fun np => np.node.id = j)).length ≤ 1 :=
      filter_key_len_le_one hn1 j
    rw [hfil] at hlen
    simp only [List.length_cons] at hlen
    have hrest : rest = [] := List.eq_nil_of_length_eq_zero (by omega)
    subst hrest
    have hnp0 : np0 ∈ P.nodePatch ∧ np0.node.id = j := by
      have hm : np0 ∈ P.nodePatch.filter (fun np => np.node.id = j) := by
        rw [hfil]
        exact List.mem_cons_self _ _
      have h2 := List.mem_filter.mp hm
      exact ⟨h2.1, by simpa using h2.2⟩
    have hfinv : (invertPatch P).nodePatch.filter (fun q => q.node.id = j)
        = [(fun (np : NodePatch) =>
            match np.operation with
            | PatchOperationType.add =>
              (⟨PatchOperationType.remove, np.node, none⟩ : NodePatch)
            | PatchOperationType.remove =>
              ⟨PatchOperationType.add, np.node, none⟩
            | PatchOperationType.update =>
              ⟨PatchOperationType.update, np.previousNode.getD default,
               some np.node⟩) np0] := by
      rw [hinv,
        filter_map_keyfix (fun np hnp => by
          simp only [invert_node_id_eq (hn2 np hnp)]),
        hfil]
      rfl
    rw [applyNodePatches_single _ _ _ _ hfinv]
    dsimp only
    have hfnp0 := hn2 np0 hnp0.1
    unfold nodePatchFaithful at hfnp0
    rcases hop : np0.operation with _ | _ | _ <;> rw [hop] at hfnp0
    · show (none : Option GraphNode) = lookupBy GraphNode.id S.nodes j
      rcases hL : lookupBy GraphNode.id S.nodes np0.node.id with _ | v
      · rw [← hnp0.2, hL]
      · rw [hL] at hfnp0
        simp at hfnp0
    · show some np0.node = lookupBy GraphNode.id S.nodes j
      rw [beq_iff_eq] at hfnp0
      rw [← hnp0.2, hfnp0]
    · rcases hprev : np0.previousNode with _ | p
      · rw [hprev] at hfnp0
        simp at hfnp0
      · rw [hprev] at hfnp0
        simp only [Bool.and_eq_true, beq_iff_eq] at hfnp0
        show some p = lookupBy GraphNode.id S.nodes j
        rw [← hnp0.2, hfnp0.2]

/-- Edge side of the undo round trip, per id. -/
theorem roundTrip_edges (S : Graph) (P : GraphPatch)
    (he1 : (P.edgePatch.map (fun ep => ep.edge.id)).Nodup)
    (he2 : ∀ ep ∈ P.edgePatch, edgePatchFaithful S ep = true) (j : String) :
    lookupBy GraphEdge.id ((invertPatch P).edgePatch.foldl applyEdgePatchOp
        (P.edgePatch.foldl applyEdgePatchOp S.edges)) j
      = lookupBy GraphEdge.id S.edges j := by
  have hinv : (invertPatch P).edgePatch
      = P.edgePatch.map (fun (ep : EdgePatch) =>
          match ep.operation with
          | PatchOperationType.add =>
            (⟨PatchOperationType.remove, ep.edge, none⟩ : EdgePatch)
          | PatchOperationType.remove => ⟨PatchOperationType.add, ep.edge, none⟩
          | PatchOperationType.update =>
            ⟨PatchOperationType.update, ep.previousEdge.getD default,
             some ep.edge⟩) := rfl
  rcases hfil : P.edgePatch.filter (fun ep => ep.edge.id = j) with _ | ⟨ep0, rest⟩
  · have hno : ∀ ep ∈ P.edgePatch, ep.edge.id ≠ j := by
      intro ep hep hk
      have hm : ep ∈ P.edgePatch.filter (fun ep => ep.edge.id = j) :=
        List.mem_filter.mpr ⟨hep, by simpa using hk⟩
      rw [hfil] at hm
      simp at hm
    have hnoinv : ∀ q ∈ (invertPatch P).edgePatch, q.edge.id ≠ j := by
      intro q hq
      rw [hinv] at hq
      rcases List.mem_map.mp hq with ⟨ep, hep, rfl⟩
      rw [invert_edge_id_eq (he2 ep hep)]
      exact hno ep hep
    rw [applyEdgePatches_untouched _ _ _ hnoinv,
      applyEdgePatches_untouched _ _ _ hno]
  · have hlen : (P.edgePatch.filter (fun ep => ep.edge.id = j)).length ≤ 1 :=
      filter_key_len_le_one he1 j
    rw [hfil] at hlen
    simp only [List.length_cons] at hlen
    have hrest : rest = [] := List.eq_nil_of_length_eq_zero (by omega)
    subst hrest
    have hep0 : ep0 ∈ P.edgePatch ∧ ep0.edge.id = j := by
      have hm : ep0 ∈ P.edgePatch.filter (fun ep => ep.edge.id = j) := by
        rw [hfil]
        exact List.mem_cons_self _ _
      have h2 := List.mem_filter.mp hm
      exact ⟨h2.1, by simpa using h2.2⟩
    have hfinv : (invertPatch P).edgePatch.filter (fun q => q.edge.id = j)
        = [(fun (ep : EdgePatch) =>
            match ep.operation with
            | PatchOperationType.add =>
              (⟨PatchOperationType.remove, ep.edge, none⟩ : EdgePatch)
            | PatchOperationType.remove =>
              ⟨PatchOperationType.add, ep.edge, none⟩
            | PatchOperationType.update =>
              ⟨PatchOperationType.update, ep.previousEdge.getD default,
               some ep.edge⟩) ep0] := by
      rw [hinv,
        filter_map_keyfix (fun ep hep => by
          simp only [invert_edge_id_eq (he2 ep hep)]),
        hfil]
      rfl
    rw [applyEdgePatches_single _ _ _ _ hfinv]
    dsimp only
    have hfep0 := he2 ep0 hep0.1
    unfold edgePatchFaithful at hfep0
    rcases hop : ep0.operation with _ | _ | _ <;> rw [hop] at hfep0
    · show (none : Option GraphEdge) = lookupBy GraphEdge.id S.edges j
      rcases hL : lookupBy GraphEdge.id S.edges ep0.edge.id with _ | v
      · rw [← hep0.2, hL]
      · rw [hL] at hfep0
        simp at hfep0
    · show some ep0.edge = lookupBy GraphEdge.id S.edges j
      rw [beq_iff_eq] at hfep0
      rw [← hep0.2, hfep0]
    · rcases hprev : ep0.previousEdge with _ | p
      · rw [hprev] at hfep0
        simp at hfep0
      · rw [hprev] at hfep0
        simp only [Bool.and_eq_true, beq_iff_eq] at hfep0
        show some p = lookupBy GraphEdge.id S.edges j
        rw [← hep0.2, hfep0.2]

/-- C2 (amended): apply-then-invert round trip.  For a snapshot `S` and
a patch with (i) at most one operation per node id and per edge id, and
(ii) every operation faithful to `S` — adds hit absent ids, removes
carry the entity stored in `S`, updates carry as previous value exactly
the entity stored in `S` (all true of patches produced by
`calculatePatch S _`) — applying the patch and then its inverse
restores `S` exactly, id-keyed lookups agreeing on the nose. -/
theorem apply_invert_round_trip (S : Graph) (P : GraphPatch)
    (hn1 : (P.nodePatch.map (fun np => np.node.id)).Nodup)
    (he1 : (P.edgePatch.map (fun ep => ep.edge.id)).Nodup)
    (hn2 : ∀ np ∈ P.nodePatch, nodePatchFaithful S np = true)
    (he2 : ∀ ep ∈ P.edgePatch, edgePatchFaithful S ep = true) :
    graphLookupEq (applyPatch (applyPatch S P) (invertPatch P)) S := by
  constructor
  · intro j
    exact roundTrip_nodes S P hn1 hn2 j
  · intro j
    exact roundTrip_edges S P he1 he2 j

/-- C2 (counterexample): the claim as stated fails.  The patch removes
the present id "a" (so it "applies successfully" in the spec's
PatchResult sense) and has no updates, yet its remove payload differs
from the stored node, so apply-then-invert re-adds the wrong node and
the result is not equal to the original snapshot. -/
theorem apply_invert_round_trip_cex :
    appliesSuccessfully ⟨[⟨"a", ["X"], []⟩], []⟩
        ⟨[⟨PatchOperationType.remove, ⟨"a", ["Y"], []⟩, none⟩], []⟩ = true ∧
    updatesCarryPrev
        ⟨[⟨PatchOperationType.remove, ⟨"a", ["Y"], []⟩, none⟩], []⟩ = true ∧
    ¬ graphEquiv
        (applyPatch
          (applyPatch ⟨[⟨"a", ["X"], []⟩], []⟩
            ⟨[⟨PatchOperationType.remove, ⟨"a", ["Y"], []⟩, none⟩], []⟩)
          (invertPatch
            ⟨[⟨PatchOperationType.remove, ⟨"a", ["Y"], []⟩, none⟩], []⟩))
        ⟨[⟨"a", ["X"], []⟩], []⟩ := by
  refine ⟨by decide, by decide, ?_⟩
  intro h
  have happly : applyPatch
      (applyPatch ⟨[⟨"a", ["X"], []⟩], []⟩
        ⟨[⟨PatchOperationType.remove, ⟨"a", ["Y"], []⟩, none⟩], []⟩)
      (invertPatch ⟨[⟨PatchOperationType.remove, ⟨"a", ["Y"], []⟩, none⟩], []⟩)
      = ⟨[⟨"a", ["Y"], []⟩], []⟩ := by decide
  rw [happly] at h
  have h3 : nodeMatch ⟨"a", ["Y"], []⟩ ⟨"a", ["X"], []⟩ := h.1 "a"
  exact absurd h3.2.1 (by decide)

/-- Witness for C2's amended round trip at a concrete snapshot and
patch (one faithful remove, one faithful update). -/
theorem apply_invert_round_trip_witness :
    graphLookupEq
      (applyPatch
        (applyPatch ⟨[⟨"a", [], []⟩, ⟨"b", [], [("k", ⟨"1"⟩)]⟩], []⟩
          ⟨[⟨PatchOperationType.remove, ⟨"a", [], []⟩, none⟩,
            ⟨PatchOperationType.update, ⟨"b", [], [("k", ⟨"2"⟩)]⟩,
             some ⟨"b", [], [("k", ⟨"1"⟩)]⟩⟩], []⟩)
        (invertPatch
          ⟨[⟨PatchOperationType.remove, ⟨"a", [], []⟩, none⟩,
            ⟨PatchOperationType.update, ⟨"b", [], [("k", ⟨"2"⟩)]⟩,
             some ⟨"b", [], [("k", ⟨"1"⟩)]⟩⟩], []⟩))
      ⟨[⟨"a", [], []⟩, ⟨"b", [], [("k", ⟨"1"⟩)]⟩], []⟩ :=
  apply_invert_round_trip _ _ (by decide) (by decide) (by decide) (by decide)

/-! ## C1 — diff/apply round trip (`PatchEngine`) -/

/-- The operation loop splits over appended operation lists. -/
theorem applyOps_append : ∀ (l1 l2 : List PatchOperation)
    (st : PatchEngine.ApplyState) (i : Nat),
    PatchEngine.applyOps (l1 ++ l2) st i
      = PatchEngine.applyOps l2 (PatchEngine.applyOps l1 st i) (i + l1.length)
  | [], l2, st, i => by simp [PatchEngine.applyOps]
  | op :: l1, l2, st, i => by
    rw [List.cons_append]
    show PatchEngine.applyOps (l1 ++ l2) (PatchEngine.applyOp st i op) (i + 1)
      = _
    rw [applyOps_append l1 l2 _ (i + 1)]
    have : i + 1 + l1.length = i + (op :: l1).length := by
      simp only [List.length_cons]
      omega
    rw [this]
    rfl

/-- Stage 1: a run of remove-node operations on distinct, present ids
filters those nodes out and cascades away every edge touching them. -/
theorem applyOps_removeNodeSeg : ∀ (xs : List String)
    (st : PatchEngine.ApplyState) (i : Nat),
    xs.Nodup →
    (∀ x ∈ xs, (lookupBy GraphNode.id st.nodes x).isSome) →
    ∃ ac, PatchEngine.applyOps (xs.map PatchOperation.removeNode) st i
      = ⟨st.nodes.filter (fun m => !(xs.contains m.id)),
         st.edges.filter (fun e =>
           !(xs.contains e.source) && !(xs.contains e.target)),
         ac, st.errors⟩
  | [], st, i => by
    intro _ _
    refine ⟨st.appliedCount, ?_⟩
    simp [PatchEngine.applyOps]
  | x :: rest, st, i => by
    intro hnd hpres
    have hx := hpres x (List.mem_cons_self _ _)
    have hstep : PatchEngine.applyOp st i (PatchOperation.removeNode x)
        = ⟨deleteBy GraphNode.id st.nodes x,
           st.edges.filter (fun e => ¬(e.source = x ∨ e.target = x)),
           st.appliedCount + 1, st.errors⟩ := by
      simp only [PatchEngine.applyOp]
      rw [if_pos hx]
    have hpres' : ∀ y ∈ rest, (lookupBy GraphNode.id
        (deleteBy GraphNode.id st.nodes x) y).isSome := by
      intro y hy
      rw [lookupBy_deleteBy,
        if_neg (fun (h : y = x) => (List.nodup_cons.mp hnd).1 (h ▸ hy))]
      exact hpres y (List.mem_cons_of_mem _ hy)
    obtain ⟨ac, hrec⟩ := applyOps_removeNodeSeg rest
      ⟨deleteBy GraphNode.id st.nodes x,
       st.edges.filter (fun e => ¬(e.source = x ∨ e.target = x)),
       st.appliedCount + 1, st.errors⟩ (i + 1)
      (List.nodup_cons.mp hnd).2 hpres'
    refine ⟨ac, ?_⟩
    show PatchEngine.applyOps (rest.map PatchOperation.removeNode)
        (PatchEngine.applyOp st i (PatchOperation.removeNode x)) (i + 1) = _
    rw [hstep, hrec]
    congr 1
    · unfold deleteBy
      rw [List.filter_filter]
      refine List.filter_congr ?_
      intro m _
      by_cases h1 : m.id = x <;> by_cases h2 : rest.contains m.id <;>
        simp [List.contains_cons, h1, h2]
    · rw [List.filter_filter]
      refine List.filter_congr ?_
      intro e _
      by_cases h1 : e.source = x <;> by_cases h2 : e.target = x <;>
        by_cases h3 : rest.contains e.source <;>
        by_cases h4 : rest.contains e.target <;>
        simp [List.contains_cons, h1, h2, h3, h4]

/-- Stage 2: a run of remove-edge operations filters those edge ids out
(removing an already-absent id merely records an error). -/
theorem applyOps_removeEdgeSeg : ∀ (xs : List String)
    (st : PatchEngine.ApplyState) (i : Nat),
    ∃ ac err, PatchEngine.applyOps (xs.map PatchOperation.removeEdge) st i
      = ⟨st.nodes, st.edges.filter (fun e => !(xs.contains e.id)), ac, err⟩
  | [], st, i => by
    refine ⟨st.appliedCount, st.errors, ?_⟩
    simp [PatchEngine.applyOps]
  | x :: rest, st, i => by
    have hstep : ∃ ac1 err1,
        PatchEngine.applyOp st i (PatchOperation.removeEdge x)
          = ⟨st.nodes, st.edges.filter (fun e => e.id != x), ac1, err1⟩ := by
      simp only [PatchEngine.applyOp]
      split
      · exact ⟨st.appliedCount + 1, st.errors, rfl⟩
      · next hnone =>
        refine ⟨st.appliedCount,
          st.errors ++ [⟨i, s!"Edge {x} not found"⟩], ?_⟩
        have hid : st.edges.filter (fun e => e.id != x) = st.edges := by
          rw [List.filter_eq_self]
          intro e he
          have : e.id ≠ x := by
            intro h
            exact hnone (lookupBy_isSome_iff.mpr ⟨e, he, h⟩)
          simpa using this
        rw [hid]
    obtain ⟨ac1, err1, hstep⟩ := hstep
    obtain ⟨ac, err, hrec⟩ := applyOps_removeEdgeSeg rest
      ⟨st.nodes, st.edges.filter (fun e => e.id != x), ac1, err1⟩ (i + 1)
    refine ⟨ac, err, ?_⟩
    show PatchEngine.applyOps (rest.map PatchOperation.removeEdge)
        (PatchEngine.applyOp st i (PatchOperation.removeEdge x)) (i + 1) = _
    rw [hstep, hrec]
    congr 1
    rw [List.filter_filter]
    refine List.filter_congr ?_
    intro e _
    by_cases h1 : e.id = x <;> by_cases h2 : rest.contains e.id <;>
      simp [List.contains_cons, h1, h2]

/-- Stage 3: a run of add-node operations on fresh, distinct ids
appends the nodes. -/
theorem applyOps_addNodeSeg : ∀ (ns : List GraphNode)
    (st : PatchEngine.ApplyState) (i : Nat),
    NodupKeys GraphNode.id ns →
    (∀ n ∈ ns, lookupBy GraphNode.id st.nodes n.id = none) →
    ∃ ac, PatchEngine.applyOps (ns.map PatchOperation.addNode) st i
      = ⟨st.nodes ++ ns, st.edges, ac, st.errors⟩
  | [], st, i => by
    intro _ _
    refine ⟨st.appliedCount, ?_⟩
    simp [PatchEngine.applyOps]
  | n :: rest, st, i => by
    intro hnd hfresh
    have hn := hfresh n (List.mem_cons_self _ _)
    have hstep : PatchEngine.applyOp st i (PatchOperation.addNode n)
        = ⟨st.nodes ++ [n], st.edges, st.appliedCount + 1, st.errors⟩ := by
      simp only [PatchEngine.applyOp]
      rw [if_neg (by rw [hn]; simp), setBy_fresh hn]
    have hfresh' : ∀ m ∈ rest,
        lookupBy GraphNode.id (st.nodes ++ [n]) m.id = none := by
      intro m hm
      rw [lookupBy_append, hfresh m (List.mem_cons_of_mem _ hm)]
      have : n.id ≠ m.id := by
        intro h
        exact (List.nodup_cons.mp hnd).1 (h ▸ List.mem_map_of_mem _ hm)
      simp [lookupBy, this, Option.orElse]
    obtain ⟨ac, hrec⟩ := applyOps_addNodeSeg rest
      ⟨st.nodes ++ [n], st.edges, st.appliedCount + 1, st.errors⟩ (i + 1)
      (List.nodup_cons.mp hnd).2 hfresh'
    refine ⟨ac, ?_⟩
    show PatchEngine.applyOps (rest.map PatchOperation.addNode)
        (PatchEngine.applyOp st i (PatchOperation.addNode n)) (i + 1) = _
    rw [hstep, hrec]
    congr 1
    simp

/-- Stage 4: a run of add-edge operations on fresh, distinct ids
appends the edges. -/
theorem applyOps_addEdgeSeg : ∀ (es : List GraphEdge)
    (st : PatchEngine.ApplyState) (i : Nat),
    NodupKeys GraphEdge.id es →
    (∀ e ∈ es, lookupBy GraphEdge.id st.edges e.id = none) →
    ∃ ac, PatchEngine.applyOps (es.map PatchOperation.addEdge) st i
      = ⟨st.nodes, st.edges ++ es, ac, st.errors⟩
  | [], st, i => by
    intro _ _
    refine ⟨st.appliedCount, ?_⟩
    simp [PatchEngine.applyOps]
  | e :: rest, st, i => by
    intro hnd hfresh
    have he := hfresh e (List.mem_cons_self _ _)
    have hstep : PatchEngine.applyOp st i (PatchOperation.addEdge e)
        = ⟨st.nodes, st.edges ++ [e], st.appliedCount + 1, st.errors⟩ := by
      simp only [PatchEngine.applyOp]
      rw [if_neg (by rw [he]; simp), setBy_fresh he]
    have hfresh' : ∀ m ∈ rest,
        lookupBy GraphEdge.id (st.edges ++ [e]) m.id = none := by
      intro m hm
      rw [lookupBy_append, hfresh m (List.mem_cons_of_mem _ hm)]
      have : e.id ≠ m.id := by
        intro h
        exact (List.nodup_cons.mp hnd).1 (h ▸ List.mem_map_of_mem _ hm)
      simp [lookupBy, this, Option.orElse]
    obtain ⟨ac, hrec⟩ := applyOps_addEdgeSeg rest
      ⟨st.nodes, st.edges ++ [e], st.appliedCount + 1, st.errors⟩ (i + 1)
      (List.nodup_cons.mp hnd).2 hfresh'
    refine ⟨ac, ?_⟩
    show PatchEngine.applyOps (rest.map PatchOperation.addEdge)
        (PatchEngine.applyOp st i (PatchOperation.addEdge e)) (i + 1) = _
    rw [hstep, hrec]
    congr 1
    simp

/-- Stage 5: a run of update-node operations on distinct, present ids
merges each delta into the matching node in place. -/
theorem applyOps_updateNodeSeg : ∀ (ups : List (String × Props))
    (st : PatchEngine.ApplyState) (i : Nat),
    (ups.map Prod.fst).Nodup →
    NodupKeys GraphNode.id st.nodes →
    (∀ pd ∈ ups, (lookupBy GraphNode.id st.nodes pd.1).isSome) →
    ∃ ac, PatchEngine.applyOps
        (ups.map (fun pd => PatchOperation.updateNode pd.1 pd.2)) st i
      = ⟨st.nodes.map (fun m =>
           match lookupBy Prod.fst ups m.id with
           | some pd =>
             { m with properties := PatchEngine.mergeProps m.properties pd.2 }
           | none => m),
         st.edges, ac, st.errors⟩
  | [], st, i => by
    intro _ _ _
    refine ⟨st.appliedCount, ?_⟩
    show st = _
    have hmapid : st.nodes.map (fun m =>
        match lookupBy Prod.fst ([] : List (String × Props)) m.id with
        | some pd =>
          { m with properties := PatchEngine.mergeProps m.properties pd.2 }
        | none => m) = st.nodes := by
      rw [show (fun m : GraphNode =>
          match lookupBy Prod.fst ([] : List (String × Props)) m.id with
          | some pd =>
            { m with properties := PatchEngine.mergeProps m.properties pd.2 }
          | none => m) = fun m => m from rfl]
      exact List.map_id _
    rw [hmapid]
  | (x, d) :: rest, st, i => by
    intro hnd hnodes hpres
    obtain ⟨p, hp⟩ := Option.isSome_iff_exists.mp
      (hpres (x, d) (List.mem_cons_self _ _))
    have hpid : p.id = x := (lookupBy_mem hp).2
    have hstep : PatchEngine.applyOp st i (PatchOperation.updateNode x d)
        = ⟨st.nodes.map (fun b =>
             if b.id = p.id
             then { p with properties := PatchEngine.mergeProps p.properties d }
             else b),
           st.edges, st.appliedCount + 1, st.errors⟩ := by
      simp only [PatchEngine.applyOp]
      rw [hp]
      dsimp only
      unfold setBy
      rw [if_pos (by
        show (lookupBy GraphNode.id st.nodes p.id).isSome = true
        rw [hpid, hp]
        rfl)]
    have hkeyfix : ∀ b : GraphNode,
        (if b.id = p.id
         then { p with properties := PatchEngine.mergeProps p.properties d }
         else b).id = b.id := by
      intro b
      by_cases h : b.id = p.id <;> simp [h]
    have hnodes' : NodupKeys GraphNode.id (st.nodes.map (fun b =>
        if b.id = p.id
        then { p with properties := PatchEngine.mergeProps p.properties d }
        else b)) := by
      unfold NodupKeys
      rw [List.map_map]
      have hc : (GraphNode.id ∘ fun b =>
          if b.id = p.id
          then { p with properties := PatchEngine.mergeProps p.properties d }
          else b) = GraphNode.id := by
        funext b
        exact hkeyfix b
      rw [hc]
      exact hnodes
    have hpres' : ∀ pd ∈ rest, (lookupBy GraphNode.id (st.nodes.map (fun b =>
        if b.id = p.id
        then { p with properties := PatchEngine.mergeProps p.properties d }
        else b)) pd.1).isSome := by
      intro pd hpd
      rw [lookupBy_map_keyfix hkeyfix]
      obtain ⟨v, hv⟩ := Option.isSome_iff_exists.mp
        (hpres pd (List.mem_cons_of_mem _ hpd))
      rw [hv]
      rfl
    obtain ⟨ac, hrec⟩ := applyOps_updateNodeSeg rest
      ⟨st.nodes.map (fun b =>
         if b.id = p.id
         then { p with properties := PatchEngine.mergeProps p.properties d }
         else b), st.edges, st.appliedCount + 1, st.errors⟩ (i + 1)
      (List.nodup_cons.mp hnd).2 hnodes' hpres'
    refine ⟨ac, ?_⟩
    show PatchEngine.applyOps (rest.map
        (fun pd => PatchOperation.updateNode pd.1 pd.2))
        (PatchEngine.applyOp st i (PatchOperation.updateNode x d)) (i + 1) = _
    rw [hstep, hrec]
    congr 1
    rw [List.map_map]
    refine List.map_congr_left ?_
    intro m hm
    simp only [Function.comp]
    by_cases hmx : m.id = x
    · have hmp : m = p := by
        have h1 := lookupBy_of_mem hnodes hm
        rw [hmx, hp] at h1
        exact (Option.some_inj.mp h1).symm
      have hxrest : lookupBy Prod.fst rest x = none := by
        rw [lookupBy_eq_none]
        intro pd hpd h
        have hmem : pd.1 ∈ rest.map Prod.fst := List.mem_map_of_mem _ hpd
        rw [h] at hmem
        exact (List.nodup_cons.mp hnd).1 hmem
      subst hmp
      rw [if_pos rfl]
      rw [show lookupBy Prod.fst rest
            ({ m with properties := PatchEngine.mergeProps m.properties d }
              : GraphNode).id = none from by
        show lookupBy Prod.fst rest m.id = none
        rw [hmx]
        exact hxrest]
      rw [show lookupBy Prod.fst ((x, d) :: rest) m.id = some (x, d) from by
        simp only [lookupBy]
        rw [if_pos hmx.symm]]
    · have hne : ¬ m.id = p.id := by
        rw [hpid]
        exact hmx
      rw [if_neg hne]
      rw [show lookupBy Prod.fst ((x, d) :: rest) m.id
            = lookupBy Prod.fst rest m.id from by
        simp only [lookupBy]
        rw [if_neg (fun h : x = m.id => hmx h.symm)]]

/-- Stage 6: a run of update-edge operations on distinct, present ids
merges each delta into the matching edge in place. -/
theorem applyOps_updateEdgeSeg : ∀ (ups : List (String × Props))
    (st : PatchEngine.ApplyState) (i : Nat),
    (ups.map Prod.fst).Nodup →
    NodupKeys GraphEdge.id st.edges →
    (∀ pd ∈ ups, (lookupBy GraphEdge.id st.edges pd.1).isSome) →
    ∃ ac, PatchEngine.applyOps
        (ups.map (fun pd => PatchOperation.updateEdge pd.1 pd.2)) st i
      = ⟨st.nodes,
         st.edges.map (fun m =>
           match lookupBy Prod.fst ups m.id with
           | some pd =>
             { m with properties := PatchEngine.mergeProps m.properties pd.2 }
           | none => m),
         ac, st.errors⟩
  | [], st, i => by
    intro _ _ _
    refine ⟨st.appliedCount, ?_⟩
    show st = _
    have hmapid : st.edges.map (fun m =>
        match lookupBy Prod.fst ([] : List (String × Props)) m.id with
        | some pd =>
          { m with properties := PatchEngine.mergeProps m.properties pd.2 }
        | none => m) = st.edges := by
      rw [show (fun m : GraphEdge =>
          match lookupBy Prod.fst ([] : List (String × Props)) m.id with
          | some pd =>
            { m with properties := PatchEngine.mergeProps m.properties pd.2 }
          | none => m) = fun m => m from rfl]
      exact List.map_id _
    rw [hmapid]
  | (x, d) :: rest, st, i => by
    intro hnd hedges hpres
    obtain ⟨p, hp⟩ := Option.isSome_iff_exists.mp
      (hpres (x, d) (List.mem_cons_self _ _))
    have hpid : p.id = x := (lookupBy_mem hp).2
    have hstep : PatchEngine.applyOp st i (PatchOperation.updateEdge x d)
        = ⟨st.nodes,
           st.edges.map (fun b =>
             if b.id = p.id
             then { p with properties := PatchEngine.mergeProps p.properties d }
             else b),
           st.appliedCount + 1, st.errors⟩ := by
      simp only [PatchEngine.applyOp]
      rw [hp]
      dsimp only
      unfold setBy
      rw [if_pos (by
        show (lookupBy GraphEdge.id st.edges p.id).isSome = true
        rw [hpid, hp]
        rfl)]
    have hkeyfix : ∀ b : GraphEdge,
        (if b.id = p.id
         then { p with properties := PatchEngine.mergeProps p.properties d }
         else b).id = b.id := by
      intro b
      by_cases h : b.id = p.id <;> simp [h]
    have hedges' : NodupKeys GraphEdge.id (st.edges.map (fun b =>
        if b.id = p.id
        then { p with properties := PatchEngine.mergeProps p.properties d }
        else b)) := by
      unfold NodupKeys
      rw [List.map_map]
      have hc : (GraphEdge.id ∘ fun b =>
          if b.id = p.id
          then { p with properties := PatchEngine.mergeProps p.properties d }
          else b) = GraphEdge.id := by
        funext b
        exact hkeyfix b
      rw [hc]
      exact hedges
    have hpres' : ∀ pd ∈ rest, (lookupBy GraphEdge.id (st.edges.map (fun b =>
        if b.id = p.id
        then { p with properties := PatchEngine.mergeProps p.properties d }
        else b)) pd.1).isSome := by
      intro pd hpd
      rw [lookupBy_map_keyfix hkeyfix]
      obtain ⟨v, hv⟩ := Option.isSome_iff_exists.mp
        (hpres pd (List.mem_cons_of_mem _ hpd))
      rw [hv]
      rfl
    obtain ⟨ac, hrec⟩ := applyOps_updateEdgeSeg rest
      ⟨st.nodes,
       st.edges.map (fun b =>
         if b.id = p.id
         then { p with properties := PatchEngine.mergeProps p.properties d }
         else b), st.appliedCount + 1, st.errors⟩ (i + 1)
      (List.nodup_cons.mp hnd).2 hedges' hpres'
    refine ⟨ac, ?_⟩
    show PatchEngine.applyOps (rest.map
        (fun pd => PatchOperation.updateEdge pd.1 pd.2))
        (PatchEngine.applyOp st i (PatchOperation.updateEdge x d)) (i + 1) = _
    rw [hstep, hrec]
    congr 1
    rw [List.map_map]
    refine List.map_congr_left ?_
    intro m hm
    simp only [Function.comp]
    by_cases hmx : m.id = x
    · have hmp : m = p := by
        have h1 := lookupBy_of_mem hedges hm
        rw [hmx, hp] at h1
        exact (Option.some_inj.mp h1).symm
      have hxrest : lookupBy Prod.fst rest x = none := by
        rw [lookupBy_eq_none]
        intro pd hpd h
        have hmem : pd.1 ∈ rest.map Prod.fst := List.mem_map_of_mem _ hpd
        rw [h] at hmem
        exact (List.nodup_cons.mp hnd).1 hmem
      subst hmp
      rw [if_pos rfl]
      rw [show lookupBy Prod.fst rest
            ({ m with properties := PatchEngine.mergeProps m.properties d }
              : GraphEdge).id = none from by
        show lookupBy Prod.fst rest m.id = none
        rw [hmx]
        exact hxrest]
      rw [show lookupBy Prod.fst ((x, d) :: rest) m.id = some (x, d) from by
        simp only [lookupBy]
        rw [if_pos hmx.symm]]
    · have hne : ¬ m.id = p.id := by
        rw [hpid]
        exact hmx
      rw [if_neg hne]
      rw [show lookupBy Prod.fst ((x, d) :: rest) m.id
            = lookupBy Prod.fst rest m.id from by
        simp only [lookupBy]
        rw [if_neg (fun h : x = m.id => hmx h.symm)]]

/-- Elements of a unique-key list with equal keys coincide. -/
theorem nodupKeys_unique {key : α → String} {l : List α} {a b : α}
    (hnd : NodupKeys key l) (ha : a ∈ l) (hb : b ∈ l) (h : key a = key b) :
    a = b := by
  have h1 := lookupBy_of_mem hnd ha
  have h2 := lookupBy_of_mem hnd hb
  rw [h] at h1
  rw [h1] at h2
  exact Option.some_inj.mp h2

/-- Key uniqueness passes to a filtered list. -/
theorem nodupKeys_filter {key : α → String} {l : List α} {q : α → Bool}
    (h : NodupKeys key l) : NodupKeys key (l.filter q) :=
  List.Nodup.sublist (List.Sublist.map key (List.filter_sublist l)) h

/-- With unique keys, filtering keeps the lookup hit when the hit
satisfies the predicate. -/
theorem lookupBy_filter_pos {key : α → String} {l : List α} {i : String}
    {q : α → Bool} {a : α} (hnd : NodupKeys key l)
    (h : lookupBy key l i = some a) (hq : q a = true) :
    lookupBy key (l.filter q) i = some a := by
  rw [lookupBy_filter_of_imp, h]
  intro b hb hbi
  obtain ⟨ha, hai⟩ := lookupBy_mem h
  rw [nodupKeys_unique hnd hb ha (by rw [hbi, hai])]
  exact hq

/-- With unique keys, filtering drops the lookup hit when the hit
fails the predicate. -/
theorem lookupBy_filter_neg {key : α → String} {l : List α} {i : String}
    {q : α → Bool} {a : α} (hnd : NodupKeys key l)
    (h : lookupBy key l i = some a) (hq : q a = false) :
    lookupBy key (l.filter q) i = none := by
  apply lookupBy_filter_of_not
  intro b hb hbi
  obtain ⟨ha, hai⟩ := lookupBy_mem h
  rw [nodupKeys_unique hnd hb ha (by rw [hbi, hai])]
  exact hq

/-- Filtering cannot create a lookup hit. -/
theorem lookupBy_filter_none {key : α → String} {l : List α} {i : String}
    {q : α → Bool} (h : lookupBy key l i = none) :
    lookupBy key (l.filter q) i = none := by
  rw [lookupBy_eq_none] at h ⊢
  intro b hb
  exact h b (List.mem_filter.mp hb).1

/-- Lookup in a key-respecting `filterMap` of a unique-key list is the
bind of the lookup. -/
theorem lookupBy_filterMap {β : Type u} {key : α → String} {key2 : β → String}
    {g : α → Option β} (hg : ∀ a b, g a = some b → key2 b = key a) :
    ∀ {l : List α} {i : String}, NodupKeys key l →
      lookupBy key2 (l.filterMap g) i = (lookupBy key l i).bind g
  | [], i, _ => rfl
  | a :: l, i, hnd => by
    rcases hga : g a with _ | b
    · rw [List.filterMap_cons_none hga]
      by_cases hai : key a = i
      · have hnone : lookupBy key2 (l.filterMap g) i = none := by
          rw [lookupBy_eq_none]
          intro b hb
          obtain ⟨c, hc, hgc⟩ := List.mem_filterMap.mp hb
          rw [hg c b hgc]
          intro hk
          have hmem : key c ∈ l.map key := List.mem_map_of_mem key hc
          rw [hk, ← hai] at hmem
          exact (List.nodup_cons.mp hnd).1 hmem
        rw [hnone]
        simp [lookupBy, hai, hga]
      · simp only [lookupBy, hai, if_false]
        exact lookupBy_filterMap hg (List.nodup_cons.mp hnd).2
    · rw [List.filterMap_cons_some hga]
      by_cases hai : key a = i
      · have hbk : key2 b = i := by rw [hg a b hga]; exact hai
        simp [lookupBy, hbk, hai, hga]
      · have hbk : ¬ key2 b = i := by rw [hg a b hga]; exact hai
        simp only [lookupBy, hbk, hai, if_false]
        exact lookupBy_filterMap hg (List.nodup_cons.mp hnd).2

/-- The keys of a key-respecting `filterMap` form a sublist of the
original keys. -/
theorem filterMap_keys_sublist {β : Type u} {key : α → String}
    {key2 : β → String} {g : α → Option β}
    (hg : ∀ a b, g a = some b → key2 b = key a) :
    ∀ (l : List α), ((l.filterMap g).map key2).Sublist (l.map key)
  | [] => List.Sublist.refl _
  | a :: l => by
    rcases hga : g a with _ | b
    · rw [List.filterMap_cons_none hga, List.map_cons]
      exact List.Sublist.cons _ (filterMap_keys_sublist hg l)
    · rw [List.filterMap_cons_some hga, List.map_cons, List.map_cons,
        hg a b hga]
      exact List.Sublist.cons₂ _ (filterMap_keys_sublist hg l)

/-- Spreading an empty delta is the identity. -/
theorem mergeProps_nil (bp : Props) : PatchEngine.mergeProps bp [] = bp := by
  simp [PatchEngine.mergeProps, lookupBy]

/-- The heart of the diff/apply round trip for properties: spreading
`diffProperties bp ap` over `bp` recovers `ap` as a map, provided `ap`
has unique keys and no key of `bp` was dropped in `ap`. -/
theorem lookupBy_mergeProps_diff (bp ap : Props)
    (hap : NodupKeys Prod.fst ap)
    (hkeys : ∀ kv ∈ bp, (lookupBy Prod.fst ap kv.1).isSome) (k : String) :
    lookupBy Prod.fst
        (PatchEngine.mergeProps bp (PatchEngine.diffProperties bp ap)) k
      = lookupBy Prod.fst ap k := by
  have hd : NodupKeys Prod.fst (PatchEngine.diffProperties bp ap) :=
    nodupKeys_filter hap
  have hFkeyfix : ∀ kv : String × PropertyValue,
      (Prod.fst (match lookupBy Prod.fst (PatchEngine.diffProperties bp ap)
          kv.1 with
        | some kv' => kv'
        | none => kv)) = kv.1 := by
    intro kv
    rcases h : lookupBy Prod.fst (PatchEngine.diffProperties bp ap) kv.1
      with _ | kv'
    · simp [h]
    · simp [h, (lookupBy_mem h).2]
  rw [show PatchEngine.mergeProps bp (PatchEngine.diffProperties bp ap)
      = bp.map (fun kv =>
          match lookupBy Prod.fst (PatchEngine.diffProperties bp ap) kv.1 with
          | some kv' => kv'
          | none => kv)
        ++ (PatchEngine.diffProperties bp ap).filter
            (fun kv => ¬(lookupBy Prod.fst bp kv.1).isSome) from rfl]
  rw [lookupBy_append, lookupBy_map_keyfix hFkeyfix]
  rcases hb : lookupBy Prod.fst bp k with _ | kv0
  · rcases ha : lookupBy Prod.fst ap k with _ | kva
    · have hdnone : lookupBy Prod.fst (PatchEngine.diffProperties bp ap) k
          = none := by
        unfold PatchEngine.diffProperties
        exact lookupBy_filter_none ha
      rw [lookupBy_filter_none hdnone]
      simp [Option.orElse]
    · have hka : kva.1 = k := (lookupBy_mem ha).2
      have hdk : lookupBy Prod.fst (PatchEngine.diffProperties bp ap) k
          = some kva := by
        refine lookupBy_filter_pos hap ha ?_
        rw [hka, hb]
        simp
      have hfk : lookupBy Prod.fst ((PatchEngine.diffProperties bp ap).filter
          (fun kv => ¬(lookupBy Prod.fst bp kv.1).isSome)) k = some kva := by
        refine lookupBy_filter_pos hd hdk ?_
        rw [hka, hb]
        simp
      rw [hfk]
      simp [Option.orElse]
  · have hk0 : kv0.1 = k := (lookupBy_mem hb).2
    have hsome := hkeys kv0 (lookupBy_mem hb).1
    rw [hk0] at hsome
    rcases ha : lookupBy Prod.fst ap k with _ | kva
    · rw [ha] at hsome
      simp at hsome
    · have hka : kva.1 = k := (lookupBy_mem ha).2
      by_cases hkv : kv0 = kva
      · have hdk : lookupBy Prod.fst (PatchEngine.diffProperties bp ap) k
            = none := by
          refine lookupBy_filter_neg hap ha ?_
          rw [hka, hb, hkv]
          simp
        simp only [Option.map_some']
        rw [hk0, hdk]
        simp [Option.orElse, hkv]
      · have hdk : lookupBy Prod.fst (PatchEngine.diffProperties bp ap) k
            = some kva := by
          refine lookupBy_filter_pos hap ha ?_
          rw [hka, hb]
          simp only [decide_eq_true_eq]
          exact fun h => hkv (Option.some_inj.mp h)
        simp only [Option.map_some']
        rw [hk0, hdk]
        simp [Option.orElse]

/-- `optionRel` on two present values is the underlying relation. -/
theorem optionRel_some {r : α → α → Prop} {a b : α} (h : r a b) :
    optionRel r (some a) (some b) := h

/-- `optionRel` on two absent values holds. -/
theorem optionRel_none {r : α → α → Prop} : optionRel r none none :=
  trivial

/-- Composing two operation runs whose outputs depend only on the node
and edge maps. -/
theorem applyOps_append_run {l1 l2 : List PatchOperation}
    {st : PatchEngine.ApplyState}
    {n1 n2 : List GraphNode} {e1 e2 : List GraphEdge}
    (h1 : ∀ i, ∃ ac err, PatchEngine.applyOps l1 st i = ⟨n1, e1, ac, err⟩)
    (h2 : ∀ (ac0 : Nat) (err0 : List OpError) (i : Nat), ∃ ac err,
      PatchEngine.applyOps l2 ⟨n1, e1, ac0, err0⟩ i = ⟨n2, e2, ac, err⟩) :
    ∀ i, ∃ ac err, PatchEngine.applyOps (l1 ++ l2) st i = ⟨n2, e2, ac, err⟩ := by
  intro i
  rw [applyOps_append]
  obtain ⟨ac0, err0, h0⟩ := h1 i
  rw [h0]
  exact h2 ac0 err0 _

/-- `diff` split into its six segments: remove-node ids, remove-edge
ids, added nodes, added edges, node-update payloads, edge-update
payloads. -/
theorem diff_decomp (before after : Graph) :
    PatchEngine.diff before after
      = ((((((before.nodes.filter (fun n =>
              ¬(lookupBy GraphNode.id after.nodes n.id).isSome)).map
                GraphNode.id).map PatchOperation.removeNode
          ++ ((before.edges.filter (fun e =>
              ¬(lookupBy GraphEdge.id after.edges e.id).isSome)).map
                GraphEdge.id).map PatchOperation.removeEdge)
          ++ (after.nodes.filter (fun n =>
              ¬(lookupBy GraphNode.id before.nodes n.id).isSome)).map
                PatchOperation.addNode)
          ++ (after.edges.filter (fun e =>
              ¬(lookupBy GraphEdge.id before.edges e.id).isSome)).map
                PatchOperation.addEdge)
          ++ (before.nodes.filterMap (PatchEngine.nodeUpdateOf after)).map
              (fun pd => PatchOperation.updateNode pd.1 pd.2))
          ++ (before.edges.filterMap (PatchEngine.edgeUpdateOf after)).map
              (fun pd => PatchOperation.updateEdge pd.1 pd.2) := by
  unfold PatchEngine.diff
  rw [List.map_map, List.map_map, List.map_filterMap, List.map_filterMap]
  congr 1
  · congr 1
    congr 1
    funext bn
    simp only [PatchEngine.nodeUpdateOf]
    rcases lookupBy GraphNode.id after.nodes bn.id with _ | an
    · rfl
    · by_cases hd : (PatchEngine.diffProperties bn.properties
          an.properties).isEmpty
      · simp [hd]
      · simp [hd]
  · congr 1
    funext be
    simp only [PatchEngine.edgeUpdateOf]
    rcases lookupBy GraphEdge.id after.edges be.id with _ | ae
    · rfl
    · by_cases hd : (PatchEngine.diffProperties be.properties
        ae.properties).isEmpty
      · simp [hd]
      · simp [hd]

/-- C1 (amended): with unique node/edge ids in both snapshots, unique
property keys in the after snapshot, labels/endpoints/types unchanged on
entities present in both snapshots, no property key dropped on such an
entity, and no edge present in both snapshots touching a removed node,
`PatchEngine.apply before (PatchEngine.diff before after)` produces a
graph equivalent to `after` (id-keyed lookups agree, properties compared
as maps). -/
theorem diff_apply_round_trip (before after : Graph)
    (hbn : NodupKeys GraphNode.id before.nodes)
    (hbe : NodupKeys GraphEdge.id before.edges)
    (han : NodupKeys GraphNode.id after.nodes)
    (hae : NodupKeys GraphEdge.id after.edges)
    (hpn : ∀ n ∈ after.nodes, NodupKeys Prod.fst n.properties)
    (hpe : ∀ e ∈ after.edges, NodupKeys Prod.fst e.properties)
    (hlab : ∀ m ∈ before.nodes, ∀ n ∈ after.nodes, m.id = n.id →
      m.labels = n.labels)
    (hend : ∀ d ∈ before.edges, ∀ e ∈ after.edges, d.id = e.id →
      d.source = e.source ∧ d.target = e.target ∧ d.type = e.type)
    (hkeysN : ∀ m ∈ before.nodes, ∀ n ∈ after.nodes, m.id = n.id →
      ∀ kv ∈ m.properties, (lookupBy Prod.fst n.properties kv.1).isSome)
    (hkeysE : ∀ d ∈ before.edges, ∀ e ∈ after.edges, d.id = e.id →
      ∀ kv ∈ d.properties, (lookupBy Prod.fst e.properties kv.1).isSome)
    (hsurv : ∀ e ∈ before.edges,
      (lookupBy GraphEdge.id after.edges e.id).isSome →
      ((lookupBy GraphNode.id before.nodes e.source).isSome →
        (lookupBy GraphNode.id after.nodes e.source).isSome) ∧
      ((lookupBy GraphNode.id before.nodes e.target).isSome →
        (lookupBy GraphNode.id after.nodes e.target).isSome)) :
    graphEquiv (PatchEngine.apply before (PatchEngine.diff before after)).1
      after := by
  set RNids := (before.nodes.filter (fun n =>
    ¬(lookupBy GraphNode.id after.nodes n.id).isSome)).map GraphNode.id
    with hRNdef
  set REids := (before.edges.filter (fun e =>
    ¬(lookupBy GraphEdge.id after.edges e.id).isSome)).map GraphEdge.id
    with hREdef
  set AN := after.nodes.filter (fun n =>
    ¬(lookupBy GraphNode.id before.nodes n.id).isSome) with hANdef
  set AE := after.edges.filter (fun e =>
    ¬(lookupBy GraphEdge.id before.edges e.id).isSome) with hAEdef
  set upsN := before.nodes.filterMap (PatchEngine.nodeUpdateOf after)
    with hupsNdef
  set upsE := before.edges.filterMap (PatchEngine.edgeUpdateOf after)
    with hupsEdef
  set N1 := before.nodes.filter (fun m => !(RNids.contains m.id)) with hN1def
  set E1 := before.edges.filter (fun e =>
    !(RNids.contains e.source) && !(RNids.contains e.target)) with hE1def
  set E2 := E1.filter (fun e => !(REids.contains e.id)) with hE2def
  set Fn := fun m : GraphNode =>
    match lookupBy Prod.fst upsN m.id with
    | some pd =>
      { m with properties := PatchEngine.mergeProps m.properties pd.2 }
    | none => m
    with hFndef
  set Fe := fun m : GraphEdge =>
    match lookupBy Prod.fst upsE m.id with
    | some pd =>
      { m with properties := PatchEngine.mergeProps m.properties pd.2 }
    | none => m
    with hFedef
  have hmemN : ∀ y : String, RNids.contains y = true ↔
      ((lookupBy GraphNode.id before.nodes y).isSome
        ∧ lookupBy GraphNode.id after.nodes y = none) := by
    intro y
    constructor
    · intro hc
      have hm : y ∈ RNids := List.elem_iff.mp hc
      rw [hRNdef] at hm
      obtain ⟨n, hn, hny⟩ := List.mem_map.mp hm
      obtain ⟨hnb, hcond⟩ := List.mem_filter.mp hn
      rw [decide_eq_true_eq] at hcond
      refine ⟨lookupBy_isSome_iff.mpr ⟨n, hnb, hny⟩, ?_⟩
      rw [← hny]
      exact Option.not_isSome_iff_eq_none.mp hcond
    · rintro ⟨hsome, hnone⟩
      obtain ⟨n, hnb, hny⟩ := lookupBy_isSome_iff.mp hsome
      have hm : y ∈ RNids := by
        rw [hRNdef]
        refine List.mem_map.mpr ⟨n, List.mem_filter.mpr ⟨hnb, ?_⟩, hny⟩
        rw [decide_eq_true_eq, hny, hnone]
        simp
      exact List.elem_iff.mpr hm
  have hmemE : ∀ y : String, REids.contains y = true ↔
      ((lookupBy GraphEdge.id before.edges y).isSome
        ∧ lookupBy GraphEdge.id after.edges y = none) := by
    intro y
    constructor
    · intro hc
      have hm : y ∈ REids := List.elem_iff.mp hc
      rw [hREdef] at hm
      obtain ⟨e, he, hey⟩ := List.mem_map.mp hm
      obtain ⟨heb, hcond⟩ := List.mem_filter.mp he
      rw [decide_eq_true_eq] at hcond
      refine ⟨lookupBy_isSome_iff.mpr ⟨e, heb, hey⟩, ?_⟩
      rw [← hey]
      exact Option.not_isSome_iff_eq_none.mp hcond
    · rintro ⟨hsome, hnone⟩
      obtain ⟨e, heb, hey⟩ := lookupBy_isSome_iff.mp hsome
      have hm : y ∈ REids := by
        rw [hREdef]
        refine List.mem_map.mpr ⟨e, List.mem_filter.mpr ⟨heb, ?_⟩, hey⟩
        rw [decide_eq_true_eq, hey, hnone]
        simp
      exact List.elem_iff.mpr hm
  have hgN : ∀ (a : GraphNode) (b : String × Props),
      PatchEngine.nodeUpdateOf after a = some b → Prod.fst b = GraphNode.id a := by
    intro a b h
    unfold PatchEngine.nodeUpdateOf at h
    rcases hl : lookupBy GraphNode.id after.nodes a.id with _ | an
    · rw [hl] at h
      exact absurd h (by simp)
    · rw [hl] at h
      dsimp only at h
      by_cases hd : (PatchEngine.diffProperties a.properties
          an.properties).isEmpty
      · rw [if_pos hd] at h
        exact absurd h (by simp)
      · rw [if_neg hd] at h
        rw [← Option.some_inj.mp h]
  have hgE : ∀ (a : GraphEdge) (b : String × Props),
      PatchEngine.edgeUpdateOf after a = some b → Prod.fst b = GraphEdge.id a := by
    intro a b h
    unfold PatchEngine.edgeUpdateOf at h
    rcases hl : lookupBy GraphEdge.id after.edges a.id with _ | ae
    · rw [hl] at h
      exact absurd h (by simp)
    · rw [hl] at h
      dsimp only at h
      by_cases hd : (PatchEngine.diffProperties a.properties
          ae.properties).isEmpty
      · rw [if_pos hd] at h
        exact absurd h (by simp)
      · rw [if_neg hd] at h
        rw [← Option.some_inj.mp h]
  have hnd1 : RNids.Nodup := by
    rw [hRNdef]
    exact nodupKeys_filter hbn
  have hpres1 : ∀ x ∈ RNids,
      (lookupBy GraphNode.id before.nodes x).isSome := by
    intro x hx
    rw [hRNdef] at hx
    obtain ⟨n, hn, hny⟩ := List.mem_map.mp hx
    exact lookupBy_isSome_iff.mpr ⟨n, (List.mem_filter.mp hn).1, hny⟩
  have hnd3 : NodupKeys GraphNode.id AN := by
    rw [hANdef]
    exact nodupKeys_filter han
  have hfresh3 : ∀ n ∈ AN, lookupBy GraphNode.id N1 n.id = none := by
    intro n hn
    rw [hANdef] at hn
    obtain ⟨hna, hcond⟩ := List.mem_filter.mp hn
    rw [decide_eq_true_eq] at hcond
    rw [hN1def]
    exact lookupBy_filter_none (Option.not_isSome_iff_eq_none.mp hcond)
  have hnd4 : NodupKeys GraphEdge.id AE := by
    rw [hAEdef]
    exact nodupKeys_filter hae
  have hfresh4 : ∀ e ∈ AE, lookupBy GraphEdge.id E2 e.id = none := by
    intro e he
    rw [hAEdef] at he
    obtain ⟨hea, hcond⟩ := List.mem_filter.mp he
    rw [decide_eq_true_eq] at hcond
    rw [hE2def, hE1def]
    exact lookupBy_filter_none (lookupBy_filter_none
      (Option.not_isSome_iff_eq_none.mp hcond))
  have hndupsN : (upsN.map Prod.fst).Nodup := by
    rw [hupsNdef]
    exact List.Nodup.sublist (filterMap_keys_sublist hgN before.nodes) hbn
  have hndupsE : (upsE.map Prod.fst).Nodup := by
    rw [hupsEdef]
    exact List.Nodup.sublist (filterMap_keys_sublist hgE before.edges) hbe
  have hnd5 : NodupKeys GraphNode.id (N1 ++ AN) := by
    rw [hN1def, hANdef]
    unfold NodupKeys
    rw [List.map_append, List.nodup_append]
    refine ⟨nodupKeys_filter hbn, nodupKeys_filter han, ?_⟩
    intro y hy1 hy2
    obtain ⟨m, hm, hmy⟩ := List.mem_map.mp hy1
    obtain ⟨n, hn, hny⟩ := List.mem_map.mp hy2
    obtain ⟨hnafter, hcond⟩ := List.mem_filter.mp hn
    rw [decide_eq_true_eq] at hcond
    apply hcond
    rw [hny, ← hmy]
    exact lookupBy_isSome_iff.mpr ⟨m, (List.mem_filter.mp hm).1, rfl⟩
  have hndE4 : NodupKeys GraphEdge.id (E2 ++ AE) := by
    rw [hE2def, hE1def, hAEdef]
    unfold NodupKeys
    rw [List.map_append, List.nodup_append]
    refine ⟨nodupKeys_filter (nodupKeys_filter hbe), nodupKeys_filter hae, ?_⟩
    intro y hy1 hy2
    obtain ⟨d, hd1, hd2⟩ := List.mem_map.mp hy1
    obtain ⟨e, he1, he2⟩ := List.mem_map.mp hy2
    obtain ⟨heaft, hcond⟩ := List.mem_filter.mp he1
    rw [decide_eq_true_eq] at hcond
    apply hcond
    rw [he2, ← hd2]
    exact lookupBy_isSome_iff.mpr
      ⟨d, (List.mem_filter.mp (List.mem_filter.mp hd1).1).1, rfl⟩
  have hpres5 : ∀ pd ∈ upsN,
      (lookupBy GraphNode.id (N1 ++ AN) pd.1).isSome := by
    intro pd hpd
    rw [hupsNdef] at hpd
    obtain ⟨bn2, hbmem, hg⟩ := List.mem_filterMap.mp hpd
    have hid : pd.1 = bn2.id := hgN bn2 pd hg
    have hsome : (lookupBy GraphNode.id after.nodes bn2.id).isSome := by
      unfold PatchEngine.nodeUpdateOf at hg
      rcases hl : lookupBy GraphNode.id after.nodes bn2.id with _ | an
      · rw [hl] at hg
        exact absurd hg (by simp)
      · rfl
    have hcont : RNids.contains bn2.id = false := by
      cases hc : RNids.contains bn2.id
      · rfl
      · have h2 := ((hmemN bn2.id).mp hc).2
        rw [h2] at hsome
        exact absurd hsome (by simp)
    have hmem1 : bn2 ∈ N1 := by
      rw [hN1def]
      exact List.mem_filter.mpr ⟨hbmem, by rw [hcont]; rfl⟩
    rw [hid, lookupBy_append,
      lookupBy_of_mem (by rw [hN1def]; exact nodupKeys_filter hbn) hmem1]
    rfl
  have hpres6 : ∀ pd ∈ upsE,
      (lookupBy GraphEdge.id (E2 ++ AE) pd.1).isSome := by
    intro pd hpd
    rw [hupsEdef] at hpd
    obtain ⟨be2, hbmem, hg⟩ := List.mem_filterMap.mp hpd
    have hid : pd.1 = be2.id := hgE be2 pd hg
    have hsomeE : (lookupBy GraphEdge.id after.edges be2.id).isSome := by
      unfold PatchEngine.edgeUpdateOf at hg
      rcases hl : lookupBy GraphEdge.id after.edges be2.id with _ | ae
      · rw [hl] at hg
        exact absurd hg (by simp)
      · rfl
    have hcontE : REids.contains be2.id = false := by
      cases hc : REids.contains be2.id
      · rfl
      · have h2 := ((hmemE be2.id).mp hc).2
        rw [h2] at hsomeE
        exact absurd hsomeE (by simp)
    have hcontS : RNids.contains be2.source = false := by
      cases hc : RNids.contains be2.source
      · rfl
      · obtain ⟨hs1, hs2⟩ := (hmemN be2.source).mp hc
        have h3 := (hsurv be2 hbmem hsomeE).1 hs1
        rw [hs2] at h3
        exact absurd h3 (by simp)
    have hcontT : RNids.contains be2.target = false := by
      cases hc : RNids.contains be2.target
      · rfl
      · obtain ⟨hs1, hs2⟩ := (hmemN be2.target).mp hc
        have h3 := (hsurv be2 hbmem hsomeE).2 hs1
        rw [hs2] at h3
        exact absurd h3 (by simp)
    have hmem2 : be2 ∈ E2 := by
      rw [hE2def]
      refine List.mem_filter.mpr ⟨?_, by rw [hcontE]; rfl⟩
      rw [hE1def]
      exact List.mem_filter.mpr ⟨hbmem, by rw [hcontS, hcontT]; rfl⟩
    rw [hid, lookupBy_append,
      lookupBy_of_mem (by
        rw [hE2def, hE1def]
        exact nodupKeys_filter (nodupKeys_filter hbe)) hmem2]
    rfl
  have run1 : ∀ i, ∃ ac err,
      PatchEngine.applyOps (RNids.map PatchOperation.removeNode)
        ⟨before.nodes, before.edges, 0, []⟩ i
      = ⟨N1, E1, ac, err⟩ := by
    intro i
    obtain ⟨ac, h⟩ := applyOps_removeNodeSeg RNids
      ⟨before.nodes, before.edges, 0, []⟩ i hnd1 hpres1
    exact ⟨ac, _, h⟩
  have run12 : ∀ i, ∃ ac err,
      PatchEngine.applyOps (RNids.map PatchOperation.removeNode
          ++ REids.map PatchOperation.removeEdge)
        ⟨before.nodes, before.edges, 0, []⟩ i
      = ⟨N1, E2, ac, err⟩ :=
    applyOps_append_run run1 (fun ac0 err0 i =>
      applyOps_removeEdgeSeg REids ⟨N1, E1, ac0, err0⟩ i)
  have run123 : ∀ i, ∃ ac err,
      PatchEngine.applyOps ((RNids.map PatchOperation.removeNode
          ++ REids.map PatchOperation.removeEdge)
          ++ AN.map PatchOperation.addNode)
        ⟨before.nodes, before.edges, 0, []⟩ i
      = ⟨N1 ++ AN, E2, ac, err⟩ :=
    applyOps_append_run run12 (fun ac0 err0 i => by
      obtain ⟨ac, h⟩ := applyOps_addNodeSeg AN ⟨N1, E2, ac0, err0⟩ i
        hnd3 hfresh3
      exact ⟨ac, _, h⟩)
  have run1234 : ∀ i, ∃ ac err,
      PatchEngine.applyOps (((RNids.map PatchOperation.removeNode
          ++ REids.map PatchOperation.removeEdge)
          ++ AN.map PatchOperation.addNode)
          ++ AE.map PatchOperation.addEdge)
        ⟨before.nodes, before.edges, 0, []⟩ i
      = ⟨N1 ++ AN, E2 ++ AE, ac, err⟩ :=
    applyOps_append_run run123 (fun ac0 err0 i => by
      obtain ⟨ac, h⟩ := applyOps_addEdgeSeg AE ⟨N1 ++ AN, E2, ac0, err0⟩ i
        hnd4 hfresh4
      exact ⟨ac, _, h⟩)
  have run12345 : ∀ i, ∃ ac err,
      PatchEngine.applyOps ((((RNids.map PatchOperation.removeNode
          ++ REids.map PatchOperation.removeEdge)
          ++ AN.map PatchOperation.addNode)
          ++ AE.map PatchOperation.addEdge)
          ++ upsN.map (fun pd => PatchOperation.updateNode pd.1 pd.2))
        ⟨before.nodes, before.edges, 0, []⟩ i
      = ⟨(N1 ++ AN).map Fn, E2 ++ AE, ac, err⟩ :=
    applyOps_append_run run1234 (fun ac0 err0 i => by
      obtain ⟨ac, h⟩ := applyOps_updateNodeSeg upsN
        ⟨N1 ++ AN, E2 ++ AE, ac0, err0⟩ i hndupsN hnd5 hpres5
      exact ⟨ac, _, h⟩)
  have runAll : ∀ i, ∃ ac err,
      PatchEngine.applyOps (((((RNids.map PatchOperation.removeNode
          ++ REids.map PatchOperation.removeEdge)
          ++ AN.map PatchOperation.addNode)
          ++ AE.map PatchOperation.addEdge)
          ++ upsN.map (fun pd => PatchOperation.updateNode pd.1 pd.2))
          ++ upsE.map (fun pd => PatchOperation.updateEdge pd.1 pd.2))
        ⟨before.nodes, before.edges, 0, []⟩ i
      = ⟨(N1 ++ AN).map Fn, (E2 ++ AE).map Fe, ac, err⟩ :=
    applyOps_append_run run12345 (fun ac0 err0 i => by
      obtain ⟨ac, h⟩ := applyOps_updateEdgeSeg upsE
        ⟨(N1 ++ AN).map Fn, E2 ++ AE, ac0, err0⟩ i hndupsE hndE4 hpres6
      exact ⟨ac, _, h⟩)
  obtain ⟨acF, errF, hrunAll⟩ := runAll 0
  have hdiffe : PatchEngine.applyOps (PatchEngine.diff before after)
      ⟨before.nodes, before.edges, 0, []⟩ 0
      = ⟨(N1 ++ AN).map Fn, (E2 ++ AE).map Fe, acF, errF⟩ := by
    rw [diff_decomp before after]
    exact hrunAll
  have hfst : (PatchEngine.apply before (PatchEngine.diff before after)).1
      = (⟨(N1 ++ AN).map Fn, (E2 ++ AE).map Fe⟩ : Graph) := by
    show (⟨(PatchEngine.applyOps (PatchEngine.diff before after)
        ⟨before.nodes, before.edges, 0, []⟩ 0).nodes,
      (PatchEngine.applyOps (PatchEngine.diff before after)
        ⟨before.nodes, before.edges, 0, []⟩ 0).edges⟩ : Graph) = _
    rw [hdiffe]
  rw [hfst]
  constructor
  · intro i
    show optionRel nodeMatch
      (lookupBy GraphNode.id ((N1 ++ AN).map Fn) i)
      (lookupBy GraphNode.id after.nodes i)
    have hFnfix : ∀ a : GraphNode, GraphNode.id (Fn a) = GraphNode.id a := by
      intro a
      rw [hFndef]
      rcases h : lookupBy Prod.fst upsN (GraphNode.id a) with _ | pd
      · simp [h]
      · simp [h]
    rw [lookupBy_map_keyfix hFnfix, lookupBy_append]
    rcases ha : lookupBy GraphNode.id after.nodes i with _ | an
    · have hn1 : lookupBy GraphNode.id N1 i = none := by
        rw [hN1def]
        apply lookupBy_filter_of_not
        intro m hm hmi
        have hc : RNids.contains m.id = true := (hmemN m.id).mpr
          ⟨lookupBy_isSome_iff.mpr ⟨m, hm, rfl⟩, by rw [hmi]; exact ha⟩
        rw [hc]
        rfl
      have hanl : lookupBy GraphNode.id AN i = none := by
        rw [hANdef]
        exact lookupBy_filter_none ha
      rw [hn1, hanl]
      exact optionRel_none
    · rcases hb : lookupBy GraphNode.id before.nodes i with _ | bn
      · have hn1 : lookupBy GraphNode.id N1 i = none := by
          rw [hN1def]
          exact lookupBy_filter_none hb
        have hanl : lookupBy GraphNode.id AN i
            = lookupBy GraphNode.id after.nodes i := by
          rw [hANdef]
          apply lookupBy_filter_of_imp
          intro n hn hni
          rw [decide_eq_true_eq, hni, hb]
          simp
        rw [hn1, hanl, ha]
        have hFan : Fn an = an := by
          rw [hFndef]
          have hnone : lookupBy Prod.fst upsN (GraphNode.id an) = none := by
            rw [hupsNdef, lookupBy_filterMap hgN hbn, (lookupBy_mem ha).2, hb]
            rfl
          simp [hnone]
        show optionRel nodeMatch (some (Fn an)) (some an)
        rw [hFan]
        exact optionRel_some ⟨rfl, rfl, fun k => rfl⟩
      · have hbni : GraphNode.id bn = i := (lookupBy_mem hb).2
        have hani : GraphNode.id an = i := (lookupBy_mem ha).2
        have hbmem : bn ∈ before.nodes := (lookupBy_mem hb).1
        have hamem : an ∈ after.nodes := (lookupBy_mem ha).1
        have hids : GraphNode.id bn = GraphNode.id an := by rw [hbni, hani]
        have hcont : RNids.contains bn.id = false := by
          cases hc : RNids.contains bn.id
          · rfl
          · have h2 := ((hmemN bn.id).mp hc).2
            rw [hbni, ha] at h2
            exact absurd h2 (by simp)
        have hn1 : lookupBy GraphNode.id N1 i = some bn := by
          rw [hN1def]
          refine lookupBy_filter_pos hbn hb ?_
          rw [hcont]
          rfl
        rw [hn1]
        show optionRel nodeMatch (some (Fn bn)) (some an)
        have hups : lookupBy Prod.fst upsN (GraphNode.id bn)
            = PatchEngine.nodeUpdateOf after bn := by
          rw [hupsNdef, lookupBy_filterMap hgN hbn, hbni, hb]
          rfl
        have hupd : PatchEngine.nodeUpdateOf after bn
            = if (PatchEngine.diffProperties bn.properties
                an.properties).isEmpty
              then none
              else some (bn.id,
                PatchEngine.diffProperties bn.properties an.properties) := by
          unfold PatchEngine.nodeUpdateOf
          rw [hbni, ha]
        by_cases hd : (PatchEngine.diffProperties bn.properties
            an.properties).isEmpty
        · have hnone : lookupBy Prod.fst upsN (GraphNode.id bn) = none := by
            rw [hups, hupd, if_pos hd]
          have hFbn : Fn bn = bn := by
            rw [hFndef]
            simp [hnone]
          rw [hFbn]
          refine optionRel_some ⟨hids, hlab bn hbmem an hamem hids, ?_⟩
          intro k
          have hprop := lookupBy_mergeProps_diff bn.properties an.properties
            (hpn an hamem) (hkeysN bn hbmem an hamem hids) k
          rw [List.isEmpty_iff.mp hd, mergeProps_nil] at hprop
          exact hprop
        · have hsome2 : lookupBy Prod.fst upsN (GraphNode.id bn)
              = some (bn.id,
                  PatchEngine.diffProperties bn.properties an.properties) := by
            rw [hups, hupd, if_neg hd]
          have hFbn : Fn bn = { bn with properties := PatchEngine.mergeProps bn.properties (PatchEngine.diffProperties bn.properties an.properties) } := by
            rw [hFndef]
            simp [hsome2]
          rw [hFbn]
          refine optionRel_some ⟨hids, hlab bn hbmem an hamem hids, ?_⟩
          intro k
          exact lookupBy_mergeProps_diff bn.properties an.properties
            (hpn an hamem) (hkeysN bn hbmem an hamem hids) k
  · intro i
    show optionRel edgeMatch
      (lookupBy GraphEdge.id ((E2 ++ AE).map Fe) i)
      (lookupBy GraphEdge.id after.edges i)
    have hFefix : ∀ a : GraphEdge, GraphEdge.id (Fe a) = GraphEdge.id a := by
      intro a
      rw [hFedef]
      rcases h : lookupBy Prod.fst upsE (GraphEdge.id a) with _ | pd
      · simp [h]
      · simp [h]
    rw [lookupBy_map_keyfix hFefix, lookupBy_append]
    rcases ha : lookupBy GraphEdge.id after.edges i with _ | ae
    · have he2 : lookupBy GraphEdge.id E2 i = none := by
        rw [hE2def]
        apply lookupBy_filter_of_not
        intro e he hei
        have heb : e ∈ before.edges := by
          rw [hE1def] at he
          exact (List.mem_filter.mp he).1
        have hc : REids.contains e.id = true := (hmemE e.id).mpr
          ⟨lookupBy_isSome_iff.mpr ⟨e, heb, rfl⟩, by rw [hei]; exact ha⟩
        rw [hc]
        rfl
      have hael : lookupBy GraphEdge.id AE i = none := by
        rw [hAEdef]
        exact lookupBy_filter_none ha
      rw [he2, hael]
      exact optionRel_none
    · rcases hb : lookupBy GraphEdge.id before.edges i with _ | be
      · have he2 : lookupBy GraphEdge.id E2 i = none := by
          rw [hE2def, hE1def]
          exact lookupBy_filter_none (lookupBy_filter_none hb)
        have hael : lookupBy GraphEdge.id AE i
            = lookupBy GraphEdge.id after.edges i := by
          rw [hAEdef]
          apply lookupBy_filter_of_imp
          intro e he hei
          rw [decide_eq_true_eq, hei, hb]
          simp
        rw [he2, hael, ha]
        have hFae : Fe ae = ae := by
          rw [hFedef]
          have hnone : lookupBy Prod.fst upsE (GraphEdge.id ae) = none := by
            rw [hupsEdef, lookupBy_filterMap hgE hbe, (lookupBy_mem ha).2, hb]
            rfl
          simp [hnone]
        show optionRel edgeMatch (some (Fe ae)) (some ae)
        rw [hFae]
        exact optionRel_some ⟨rfl, rfl, rfl, rfl, fun k => rfl⟩
      · have hbei : GraphEdge.id be = i := (lookupBy_mem hb).2
        have haei : GraphEdge.id ae = i := (lookupBy_mem ha).2
        have hbmem : be ∈ before.edges := (lookupBy_mem hb).1
        have hamem : ae ∈ after.edges := (lookupBy_mem ha).1
        have hids : GraphEdge.id be = GraphEdge.id ae := by rw [hbei, haei]
        have hsomeE : (lookupBy GraphEdge.id after.edges be.id).isSome := by
          rw [hbei, ha]
          rfl
        have hcontE : REids.contains be.id = false := by
          cases hc : REids.contains be.id
          · rfl
          · have h2 := ((hmemE be.id).mp hc).2
            rw [h2] at hsomeE
            exact absurd hsomeE (by simp)
        have hcontS : RNids.contains be.source = false := by
          cases hc : RNids.contains be.source
          · rfl
          · obtain ⟨hs1, hs2⟩ := (hmemN be.source).mp hc
            have h3 := (hsurv be hbmem hsomeE).1 hs1
            rw [hs2] at h3
            exact absurd h3 (by simp)
        have hcontT : RNids.contains be.target = false := by
          cases hc : RNids.contains be.target
          · rfl
          · obtain ⟨hs1, hs2⟩ := (hmemN be.target).mp hc
            have h3 := (hsurv be hbmem hsomeE).2 hs1
            rw [hs2] at h3
            exact absurd h3 (by simp)
        have he1 : lookupBy GraphEdge.id E1 i = some be := by
          rw [hE1def]
          refine lookupBy_filter_pos hbe hb ?_
          rw [hcontS, hcontT]
          rfl
        have he2 : lookupBy GraphEdge.id E2 i = some be := by
          rw [hE2def]
          refine lookupBy_filter_pos
            (by rw [hE1def]; exact nodupKeys_filter hbe) he1 ?_
          rw [hcontE]
          rfl
        rw [he2]
        show optionRel edgeMatch (some (Fe be)) (some ae)
        have hups : lookupBy Prod.fst upsE (GraphEdge.id be)
            = PatchEngine.edgeUpdateOf after be := by
          rw [hupsEdef, lookupBy_filterMap hgE hbe, hbei, hb]
          rfl
        have hupd : PatchEngine.edgeUpdateOf after be
            = if (PatchEngine.diffProperties be.properties
                ae.properties).isEmpty
              then none
              else some (be.id,
                PatchEngine.diffProperties be.properties ae.properties) := by
          unfold PatchEngine.edgeUpdateOf
          rw [hbei, ha]
        obtain ⟨hsrc, htgt, htyp⟩ := hend be hbmem ae hamem hids
        by_cases hd : (PatchEngine.diffProperties be.properties
            ae.properties).isEmpty
        · have hnone : lookupBy Prod.fst upsE (GraphEdge.id be) = none := by
            rw [hups, hupd, if_pos hd]
          have hFbe : Fe be = be := by
            rw [hFedef]
            simp [hnone]
          rw [hFbe]
          refine optionRel_some ⟨hids, hsrc, htgt, htyp, ?_⟩
          intro k
          have hprop := lookupBy_mergeProps_diff be.properties ae.properties
            (hpe ae hamem) (hkeysE be hbmem ae hamem hids) k
          rw [List.isEmpty_iff.mp hd, mergeProps_nil] at hprop
          exact hprop
        · have hsome2 : lookupBy Prod.fst upsE (GraphEdge.id be)
              = some (be.id,
                  PatchEngine.diffProperties be.properties ae.properties) := by
            rw [hups, hupd, if_neg hd]
          have hFbe : Fe be = { be with properties := PatchEngine.mergeProps be.properties (PatchEngine.diffProperties be.properties ae.properties) } := by
            rw [hFedef]
            simp [hsome2]
          rw [hFbe]
          refine optionRel_some ⟨hids, hsrc, htgt, htyp, ?_⟩
          intro k
          exact lookupBy_mergeProps_diff be.properties ae.properties
            (hpe ae hamem) (hkeysE be hbmem ae hamem hids) k

/-- C1 as stated fails: a label change on a surviving node id is
invisible to `diff` (which compares only property maps of surviving
entities), so applying the diff returns the old label, not an
equivalent snapshot. -/
theorem diff_apply_round_trip_cex :
    ¬ graphEquiv
      (PatchEngine.apply ⟨[⟨"a", ["X"], []⟩], []⟩
        (PatchEngine.diff ⟨[⟨"a", ["X"], []⟩], []⟩
          ⟨[⟨"a", ["Y"], []⟩], []⟩)).1
      ⟨[⟨"a", ["Y"], []⟩], []⟩ := by
  intro h
  have h1 : nodeMatch ⟨"a", ["X"], []⟩ ⟨"a", ["Y"], []⟩ := h.1 "a"
  exact absurd h1.2.1 (by decide)

/-- Witness: the amended C1 theorem at a concrete pair of snapshots
exercising removal, addition and property update of both nodes and
edges, hypotheses checked by evaluation. -/
theorem diff_apply_round_trip_witness :
    graphEquiv
      (PatchEngine.apply
        ⟨[⟨"a", ["L"], [("p", ⟨"1"⟩)]⟩, ⟨"b", ["M"], []⟩],
         [⟨"e1", "a", "b", "R", []⟩]⟩
        (PatchEngine.diff
          ⟨[⟨"a", ["L"], [("p", ⟨"1"⟩)]⟩, ⟨"b", ["M"], []⟩],
           [⟨"e1", "a", "b", "R", []⟩]⟩
          ⟨[⟨"a", ["L"], [("p", ⟨"2"⟩), ("q", ⟨"3"⟩)]⟩, ⟨"c", ["N"], []⟩],
           [⟨"e2", "a", "c", "R", []⟩]⟩)).1
      ⟨[⟨"a", ["L"], [("p", ⟨"2"⟩), ("q", ⟨"3"⟩)]⟩, ⟨"c", ["N"], []⟩],
       [⟨"e2", "a", "c", "R", []⟩]⟩ :=
  diff_apply_round_trip _ _
    (by decide) (by decide) (by decide) (by decide) (by decide) (by decide)
    (by decide) (by decide) (by decide) (by decide) (by decide)
